import Mathlib

/-!
Verification of `wca/platforms.py` (workload-collocation-agent).

Python strings are modelled as `List Char`; Python `dict` as an
insertion-ordered association list (`PyDict`); Python `set` as `Finset`;
a Python function that can raise is modelled as `Option`- or
`Except`-valued.  File-system reads are modelled by passing the file
contents (or existence flags) as explicit inputs.
-/

namespace Wca

/-- Characters Python's `str.strip()` / `str.split()` treat as whitespace
(ASCII subset; the inputs considered contain no exotic unicode spaces). -/
def isPySpace (c : Char) : Bool :=
  c = ' ' || c = '\t' || c = '\n' || c = '\r' || c = '\x0b' || c = '\x0c'

/-- Python `str.strip()`: drop leading and trailing whitespace. -/
def pyStrip (l : List Char) : List Char :=
  ((l.dropWhile isPySpace).reverse.dropWhile isPySpace).reverse

/-- Decimal digit test, `'0'..'9'`. -/
def isDigitChar (c : Char) : Bool :=
  48 ≤ c.toNat && c.toNat ≤ 57

/-- Numeric value of a decimal digit character. -/
def digitVal (c : Char) : Nat := c.toNat - 48

/-- Decimal digit character for a value `0..9`. -/
def digitChar : Nat → Char
  | 0 => '0' | 1 => '1' | 2 => '2' | 3 => '3' | 4 => '4'
  | 5 => '5' | 6 => '6' | 7 => '7' | 8 => '8' | _ => '9'

/-- Value of a digit string read left to right. -/
def digitsVal (l : List Char) : Nat :=
  l.foldl (fun a c => 10 * a + digitVal c) 0

/-- Parse a non-empty all-digit string (the digits part of Python `int()`).
Anything else is a `ValueError`, i.e. `none`. -/
def parseDigits (l : List Char) : Option Nat :=
  if l ≠ [] ∧ l.all isDigitChar then some (digitsVal l) else none

/-- Python `int(str)`: optional surrounding whitespace, optional single
sign, then decimal digits.  (PEP-515 underscore separators are not
modelled; none of the inputs considered use them.) -/
def pyInt (l : List Char) : Option Int :=
  let s := pyStrip l
  if s.head? = some '-' then (parseDigits (s.drop 1)).map (fun n => -(n : Int))
  else if s.head? = some '+' then (parseDigits (s.drop 1)).map (fun n => ((n : Nat) : Int))
  else (parseDigits s).map (fun n => ((n : Nat) : Int))

/-- Decimal rendering of a natural number, with explicit fuel so the
definition is structurally recursive (the fuel is always sufficient). -/
def natCharsAux : Nat → Nat → List Char
  | 0, _ => []
  | fuel + 1, n =>
    if n < 10 then [digitChar n]
    else natCharsAux fuel (n / 10) ++ [digitChar (n % 10)]

/-- Python `str(n)` for a natural number. -/
def natChars (n : Nat) : List Char := natCharsAux (n + 1) n

/-- Python `str(n)` for an integer. -/
def intChars (n : Int) : List Char :=
  if n < 0 then '-' :: natChars n.natAbs else natChars n.toNat

/-- Worker for `splitOnChar`; `acc` is the current token, reversed. -/
def splitOnCharGo (c : Char) (acc : List Char) : List Char → List (List Char)
  | [] => [acc.reverse]
  | x :: xs =>
    if x = c then acc.reverse :: splitOnCharGo c [] xs
    else splitOnCharGo c (x :: acc) xs

/-- Python `str.split(sep)` for a one-character separator `sep`:
always returns at least one (possibly empty) token. -/
def splitOnChar (c : Char) (l : List Char) : List (List Char) :=
  splitOnCharGo c [] l

/-- Worker for `splitWS`; `acc` is the current token, reversed. -/
def splitWSGo (acc : List Char) : List Char → List (List Char)
  | [] => if acc = [] then [] else [acc.reverse]
  | x :: xs =>
    if isPySpace x then
      (if acc = [] then splitWSGo [] xs else acc.reverse :: splitWSGo [] xs)
    else splitWSGo (x :: acc) xs

/-- Python `str.split()` with no argument: split on whitespace runs,
producing no empty tokens. -/
def splitWS (l : List Char) : List (List Char) :=
  splitWSGo [] l

/-- Push a character onto the first token of a token list. -/
def consHead (x : α) : List (List α) → List (List α)
  | [] => [[x]]
  | t :: ts => (x :: t) :: ts

/-- Python `str.split(sep)` for the two-character separator of two
newlines (used on `/proc/cpuinfo`): leftmost, non-overlapping. -/
def splitOnNlNl : List Char → List (List Char)
  | [] => [[]]
  | [x] => [[x]]
  | x :: y :: rest =>
    if x = '\n' ∧ y = '\n' then [] :: splitOnNlNl rest
    else consHead x (splitOnNlNl (y :: rest))

/-- Python `line.startswith(pre)`; first argument is the pattern. -/
def startsWithL : List Char → List Char → Bool
  | [], _ => true
  | _ :: _, [] => false
  | p :: ps, x :: xs => p = x && startsWithL ps xs

/-- Python `needle in hay` on strings (substring containment). -/
def containsSub (needle : List Char) : List Char → Bool
  | [] => needle.isEmpty
  | x :: t => startsWithL needle (x :: t) || containsSub needle t

/-- Python `sep.join(tokens)` for a string separator. -/
def joinWith (sep : List Char) : List (List Char) → List Char
  | [] => []
  | [t] => t
  | t :: ts => t ++ sep ++ joinWith sep ts

/-- An insertion-ordered dictionary, as Python's `dict`: a list of
key/value pairs with at most one entry per key. -/
abbrev PyDict (K V : Type) := List (K × V)

/-- Python `d[k] = v`: replace in place if `k` is present, else append. -/
def dictInsert [DecidableEq K] (d : PyDict K V) (k : K) (v : V) : PyDict K V :=
  match d with
  | [] => [(k, v)]
  | (k', v') :: rest => if k' = k then (k, v) :: rest else (k', v') :: dictInsert rest k v

/-- Python `d[k]` as an `Option` (`none` is a `KeyError`). -/
def dictGet [DecidableEq K] (d : PyDict K V) (k : K) : Option V :=
  (d.find? (fun p => p.1 = k)).map (·.2)

/-- Python `d.keys()`. -/
def dictKeys (d : PyDict K V) : List K := d.map (·.1)

/-! Translations of the functions of `wca/platforms.py`. -/

/-- Python `range(start, end+1)` as a list of integers (empty whenever
`start > end`). -/
def intRangeIncl (start e : Int) : List Int :=
  (List.range (e + 1 - start).toNat).map (fun i => start + i)

/-- The loop body of the source's `decode_listformat`: handle one
comma-separated token `r`.  A token whose dash-split has three or more
parts falls out of the `len==1`/`len==2` chain and is skipped. -/
def decode_token_step (cores : Finset Int) (r : List Char) : Option (Finset Int) :=
  let boundaries := splitOnChar '-' r
  if boundaries.length = 1 then
    (pyInt (pyStrip (boundaries.headD []))).map (fun n => insert n cores)
  else if boundaries.length = 2 then do
    let start ← pyInt (pyStrip (boundaries.headD []))
    let e ← pyInt (pyStrip (boundaries.getD 1 []))
    pure ((intRangeIncl start e).foldl (fun cs i => insert i cs) cores)
  else
    pure cores

/-- The source's `decode_listformat(value)`: parse cpuset(7) "List
Format".  Empty input yields the empty set; a token is a single integer
or a `start-end` range; `none` models a raised `ValueError`. -/
def decode_listformat (value : List Char) : Option (Finset Int) :=
  if value = [] then some (∅ : Finset Int)
  else
    (splitOnChar ',' value).foldlM decode_token_step (∅ : Finset Int)

/-- The source's `encode_listformat(ints)`: comma-separated ascending
decimal list (the `sorted(ints)` of the source is the canonical
ascending enumeration of the finite set). -/
def encode_listformat (ints : Finset Int) : List Char :=
  joinWith [','] ((ints.sort (· ≤ ·)).map intChars)

/-- The source's inner `get_value_from_line`: `int(line.split()[1])`
(`none` models an `IndexError` or `ValueError`). -/
def get_value_from_line (line : List Char) : Option Int :=
  (splitWS line).get? 1 >>= pyInt

/-- The loop body of the source's `parse_proc_meminfo`: the
`startswith` elif chain over one line, updating the
total/free/buffers/cache state. -/
def meminfo_line_step (st : Int × Int × Int × Int) (line : List Char) :
    Option (Int × Int × Int × Int) := do
  let (total, free, buffers, cache) := st
  if startsWithL "MemTotal".toList line then
    pure ((← get_value_from_line line), free, buffers, cache)
  else if startsWithL "MemFree".toList line then
    pure (total, (← get_value_from_line line), buffers, cache)
  else if startsWithL "Buffers".toList line then
    pure (total, free, (← get_value_from_line line), cache)
  else if startsWithL "Cached".toList line then
    pure (total, free, buffers, (← get_value_from_line line))
  else
    pure st

/-- The source's `parse_proc_meminfo(proc_meminfo_output)`: fold the
`MemTotal`/`MemFree`/`Buffers`/`Cached` lines (later lines overwrite),
then return `(total - free - buffers - cache) << 10`; a Python `<<` on
an `int` is multiplication by the power of two. -/
def parse_proc_meminfo (proc_meminfo_output : List Char) : Option Int := do
  let st ← (splitOnChar '\n' proc_meminfo_output).foldlM meminfo_line_step
    ((0 : Int), 0, 0, 0)
  let (total, free, buffers, cache) := st
  pure ((total - free - buffers - cache) * 2 ^ 10)

/-- One entry of the listing of `/sys/devices/system/node`: the
directory name and the contents of its `meminfo` and `cpulist` files. -/
structure NodeDir where
  name : List Char
  meminfo : List Char
  cpulist : List Char

/-- The loop body of the source's `parse_node_meminfo` over one line of
one node's memory-info file: only lines with exactly 5 fields
contribute; the 3rd field selects the mapping, the key is `int(s[1])`
and the value `int(s[3]) << 10`. -/
def node_meminfo_line_step (acc : PyDict Int Int × PyDict Int Int)
    (line : List Char) : Option (PyDict Int Int × PyDict Int Int) := do
  let s := splitWS line
  if s.length ≠ 5 then pure acc
  else do
    let acc ← if s.getD 2 [] = "MemFree:".toList then do
        let k ← pyInt (s.getD 1 [])
        let v ← pyInt (s.getD 3 [])
        pure ((dictInsert acc.1 k (v * 2 ^ 10), acc.2) :
          PyDict Int Int × PyDict Int Int)
      else pure acc
    if s.getD 2 [] = "MemUsed:".toList then do
      let k ← pyInt (s.getD 1 [])
      let v ← pyInt (s.getD 3 [])
      pure (acc.1, dictInsert acc.2 k (v * 2 ^ 10))
    else pure acc

/-- The loop body of the source's `parse_node_meminfo` over one entry
of the directory listing: directories not named `node*` are skipped,
otherwise the node's memory-info lines are processed in order. -/
def node_meminfo_dir_step (acc : PyDict Int Int × PyDict Int Int)
    (nd : NodeDir) : Option (PyDict Int Int × PyDict Int Int) :=
  if startsWithL "node".toList nd.name then
    (splitOnChar '\n' nd.meminfo).foldlM node_meminfo_line_step acc
  else pure acc

/-- The source's `parse_node_meminfo()`, with the directory listing and
file contents passed explicitly.  `readlines()` keeps the newline on
each line, but `split()` discards it, so splitting the contents on
newlines first is equivalent. -/
def parse_node_meminfo (dirs : List NodeDir) : Option (PyDict Int Int × PyDict Int Int) :=
  dirs.foldlM node_meminfo_dir_step (([], []) : PyDict Int Int × PyDict Int Int)

/-- The source's `parse_node_cpus()`: node id from the directory-name
suffix (`int(nodedir[4:])`), CPU set from the `cpulist` file via
`decode_listformat`. -/
def parse_node_cpus (dirs : List NodeDir) : Option (PyDict Int (Finset Int)) :=
  dirs.foldlM (fun node_cpus nd =>
    if startsWithL "node".toList nd.name then do
      let node_id ← pyInt (nd.name.drop 4)
      let cpus ← decode_listformat nd.cpulist
      pure (dictInsert node_cpus node_id cpus)
    else pure node_cpus) ([] : PyDict Int (Finset Int))

/-- The loop body of the source's `parse_proc_stat`: handle one line.
A line not starting with `cpu`, or whose suffix after `cpu` and before
the first space is empty (the aggregate line), leaves the mapping
unchanged. -/
def proc_stat_line_step (cpus_usage : PyDict Int Int) (line : List Char) :
    Option (PyDict Int Int) :=
  if line ≠ [] ∧ startsWithL "cpu".toList line then
    let cpu_stat_fields := splitOnChar ' ' line
    let cpu_id_s := (cpu_stat_fields.headD []).drop 3
    if cpu_id_s = [] then pure cpus_usage
    else do
      let cpu_id ← pyInt cpu_id_s
      let user ← cpu_stat_fields.get? 1 >>= pyInt
      let nice ← cpu_stat_fields.get? 2 >>= pyInt
      let system ← cpu_stat_fields.get? 3 >>= pyInt
      let irq ← cpu_stat_fields.get? 6 >>= pyInt
      let softirq ← cpu_stat_fields.get? 7 >>= pyInt
      let steal ← cpu_stat_fields.get? 8 >>= pyInt
      pure (dictInsert cpus_usage cpu_id (user + nice + system + irq + softirq + steal))
  else pure cpus_usage

/-- The source's `parse_proc_stat(proc_stat_output)`: for each line
starting with `cpu` whose suffix before the first space is non-empty,
the suffix is the cpu id and the usage is the sum of fields
1,2,3,6,7,8 of the space-split line (user, nice, system, irq, softirq,
steal; idle, iowait, guest and guest-nice are excluded). -/
def parse_proc_stat (proc_stat_output : List Char) : Option (PyDict Int Int) :=
  (splitOnChar '\n' proc_stat_output).foldlM proc_stat_line_step ([] : PyDict Int Int)

/-- The source's `get_cpu_model()`, with the `/proc/cpuinfo` text passed
explicitly: the regex group of `model name\s*:\s*(.*)\s*$` on the first
line starting with `model name`, else `unknown_cpu_model`. -/
def model_name_group (line : List Char) : Option (List Char) :=
  match (line.drop 10).dropWhile isPySpace with
  | ':' :: tail => some (tail.dropWhile isPySpace)
  | _ => none

/-- Scan the lines of the processor-descriptor text as `get_cpu_model`
does: the first `model name` line decides (a failed regex match breaks
out of the loop). -/
def get_cpu_model (procinfo : List Char) : List Char :=
  match (splitOnChar '\n' procinfo).find? (fun line => startsWithL "model name".toList line) with
  | some line =>
    match model_name_group line with
    | some s => s
    | none => "unknown_cpu_model".toList
  | none => "unknown_cpu_model".toList

/-- Consecutive-run grouping as `itertools.groupby(l, key)`: each
maximal run of adjacent elements with equal key becomes one group. -/
def pyGroupBy (key : α → Int) : List α → List (Int × List α)
  | [] => []
  | x :: xs =>
    match pyGroupBy key xs with
    | [] => [(key x, [x])]
    | (k, g) :: rest =>
      if key x = k then (key x, x :: g) :: rest
      else (key x, [x]) :: (k, g) :: rest

/-- The socket → core → cpu-list mapping type of the source. -/
abbrev Topology := PyDict Int (PyDict Int (List Int))

/-- One socket's core → cpu-list dictionary: the socket's records are
sorted by core id, run-grouped, and each group's processor ids are
collected, exactly as the inner `groupby(sorted(...))` loop with the
`topology[physical_id][core_id] = [...]` assignments. -/
def innerDict (g : List (Int × Int × Int)) : PyDict Int (List Int) :=
  (pyGroupBy (fun t => t.2.1)
      (List.insertionSort (fun a b : Int × Int × Int => a.2.1 ≤ b.2.1) g)).foldl
    (fun d cg => dictInsert d cg.1 (cg.2.map (fun t => t.2.2)))
    ([] : PyDict Int (List Int))

/-- The full socket → core → cpu-list mapping from the keyed records
`(physical id, core id, processor)`: sort by socket id, run-group, and
build each socket's inner dictionary. -/
def topoOfKeyed (keyed : List (Int × Int × Int)) : Topology :=
  (pyGroupBy (fun t => t.1)
      (List.insertionSort (fun a b : Int × Int × Int => a.1 ≤ b.1) keyed)).foldl
    (fun t kg => dictInsert t kg.1 (innerDict kg.2)) ([] : Topology)

/-- The source's `collect_topology_information()`, with the
`/proc/cpuinfo` text passed explicitly.  Records are the non-empty
blank-line-separated blocks; each block becomes a dict of
colon-split, stripped key/value lines (a line that does not split into
exactly two parts makes `dict(...)` raise).  The three integer keys
(`physical id`, `core id`, `processor`) are extracted up front; the
source extracts them lazily inside `sorted`/`groupby`, which applies
each of them to every record, so under success the results agree.
Grouping is sort-by-key then run-grouping, exactly as
`groupby(sorted(...))`; `sorted` is modelled by the stable
`insertionSort`.  Returns
`(nr_of_online_cpus, nr_of_cores, nr_of_sockets, topology)`. -/
def collect_topology_information (procinfo : List Char) :
    Option (Nat × Nat × Nat × Topology) := do
  let blocks := (splitOnNlNl procinfo).filter (fun b => b ≠ [])
  let processors ← blocks.mapM (fun proc => do
    let pairs ← (splitOnChar '\n' proc).mapM (fun line =>
      match (splitOnChar ':' line).map pyStrip with
      | [k, v] => some (k, v)
      | _ => none)
    pure (pairs.foldl (fun d (kv : List Char × List Char) => dictInsert d kv.1 kv.2)
      ([] : PyDict (List Char) (List Char))))
  let keyed ← processors.mapM (fun p => do
    let pid ← dictGet p "physical id".toList >>= pyInt
    let cid ← dictGet p "core id".toList >>= pyInt
    let prid ← dictGet p "processor".toList >>= pyInt
    pure (pid, cid, prid))
  let topology := topoOfKeyed keyed
  let nr_of_online_cpus := processors.length
  let nr_of_cores := (topology.map (fun skv => skv.2.length)).sum
  let nr_of_sockets := topology.length
  pure (nr_of_online_cpus, nr_of_cores, nr_of_sockets, topology)

/-- The `RDTInformation` dataclass of the source. -/
structure RDTInformation where
  rdt_cache_monitoring_enabled : Bool
  rdt_mb_monitoring_enabled : Bool
  rdt_cache_control_enabled : Bool
  rdt_mb_control_enabled : Bool
  cbm_mask : Option (List Char)
  min_cbm_bits : Option (List Char)
  num_closids : Option Int
  mb_bandwidth_gran : Option Int
  mb_min_bandwidth : Option Int
deriving DecidableEq

/-- The resctrl filesystem state `_collect_rdt_information` reads:
existence of the two monitoring-data paths, and the contents of the
files it may open (`none` models a missing file, i.e. an `IOError`). -/
structure ResctrlFS where
  llcOccupancyExists : Bool
  mbmTotalExists : Bool
  schemata : Option (List Char)
  l3_cbm_mask : Option (List Char)
  l3_min_cbm_bits : Option (List Char)
  l3_num_closids : Option (List Char)
  mb_bandwidth_gran_file : Option (List Char)
  mb_min_bandwidth_file : Option (List Char)
  mb_num_closids_file : Option (List Char)

/-- The source's inner `_read_value(subpath)`: read the file and strip
the contents. -/
def _read_value (f : Option (List Char)) : Option (List Char) :=
  f.map pyStrip

/-- The source's `_collect_rdt_information()`.  Cache parameters are
read exactly when `L3` occurs in the schemata body, bandwidth
parameters exactly when `MB:` occurs; when both controls are enabled
the reported `num_closids` is the minimum of the two subsystem
readings.  (On that path both counts are present by construction; the
`none` fallback mirrors the `TypeError` Python's `min` would raise on a
missing value, which cannot occur.) -/
def _collect_rdt_information (fs : ResctrlFS) : Option RDTInformation := do
  let rdt_cache_monitoring_enabled := fs.llcOccupancyExists
  let rdt_mb_monitoring_enabled := fs.mbmTotalExists
  let schemata_body ← _read_value fs.schemata
  let rdt_cache_control_enabled := containsSub "L3".toList schemata_body
  let (cbm_mask, min_cbm_bits, num_closids) ←
    if rdt_cache_control_enabled then do
      let cm ← _read_value fs.l3_cbm_mask
      let mcb ← _read_value fs.l3_min_cbm_bits
      let nc ← _read_value fs.l3_num_closids >>= pyInt
      pure ((some cm, some mcb, some nc) :
        Option (List Char) × Option (List Char) × Option Int)
    else pure (none, none, none)
  let rdt_mb_control_enabled := containsSub "MB:".toList schemata_body
  let (mb_bandwidth_gran, mb_min_bandwidth, mb_num_closids) ←
    if rdt_mb_control_enabled then do
      let g ← _read_value fs.mb_bandwidth_gran_file >>= pyInt
      let mmb ← _read_value fs.mb_min_bandwidth_file >>= pyInt
      let mnc ← _read_value fs.mb_num_closids_file >>= pyInt
      pure ((some g, some mmb, some mnc) : Option Int × Option Int × Option Int)
    else pure (none, none, none)
  let num_closids ←
    if rdt_cache_control_enabled && rdt_mb_control_enabled then
      match num_closids, mb_num_closids with
      | some a, some b => some (some (min a b))
      | _, _ => none
    else some num_closids
  pure { rdt_cache_monitoring_enabled, rdt_mb_monitoring_enabled,
         rdt_cache_control_enabled, rdt_mb_control_enabled,
         cbm_mask, min_cbm_bits, num_closids,
         mb_bandwidth_gran, mb_min_bandwidth }

/-- The `Platform` dataclass of the source.  The wall-clock timestamp
(a float in the source) is modelled as an abstract integer: no claim
inspects it. -/
structure Platform where
  sockets : Nat
  cores : Nat
  cpus : Nat
  topology : Topology
  cpu_model : List Char
  cpus_usage : PyDict Int Int
  total_memory_used : Int
  node_memory_free : PyDict Int Int
  node_memory_used : PyDict Int Int
  node_cpus : PyDict Int (Finset Int)
  timestamp : Int
  rdt_information : Option RDTInformation
deriving DecidableEq

/-- Modelled from the spec: the metric names used by `create_metrics`
(`MetricName.MEM_USAGE`, `MetricName.CPU_USAGE_PER_CPU` come from
`wca/metrics.py`, which is not part of the sources). -/
inductive MetricName where
  | mem_usage
  | cpu_usage_per_cpu
deriving DecidableEq

/-- Modelled from the spec: a Measurement Point is a named numeric
observation with optional key/value labels (`Metric` of
`wca/metrics.py`, not part of the sources). -/
structure Metric where
  name : MetricName
  value : Int
  labels : PyDict (List Char) (List Char)
deriving DecidableEq

/-- Modelled from the spec: `Metric.create_metric_with_metadata` of
`wca/metrics.py` (not part of the sources) builds a Metric from a name,
a value and optional labels. -/
def Metric.create_metric_with_metadata (name : MetricName) (value : Int)
    (labels : PyDict (List Char) (List Char) := []) : Metric :=
  { name, value, labels }

/-- The source's `create_metrics(platform)`: one memory-usage point,
then one per-CPU usage point per entry of `cpus_usage`, labelled with
the cpu id. -/
def create_metrics (platform : Platform) : List Metric :=
  [Metric.create_metric_with_metadata .mem_usage platform.total_memory_used] ++
    platform.cpus_usage.map (fun kv =>
      Metric.create_metric_with_metadata .cpu_usage_per_cpu kv.2
        [("cpu".toList, intChars kv.1)])

/-- The source's `create_labels(platform)`, with the host-identity
facts (hostname, wca version) and the `/proc/cpuinfo` text passed as
explicit inputs. -/
def create_labels (platform : Platform) (hostname wca_version procinfo : List Char) :
    PyDict (List Char) (List Char) :=
  [("sockets".toList, natChars platform.sockets),
   ("cores".toList, natChars platform.cores),
   ("cpus".toList, natChars platform.cpus),
   ("host".toList, hostname),
   ("wca_version".toList, wca_version),
   ("cpu_model".toList, get_cpu_model procinfo)]

/-- Error outcomes of a collection cycle: a raised parse/IO error from
one of the collectors, or the final consistency `assert`. -/
inductive PErr where
  | parseError
  | assertionError
deriving DecidableEq

/-- Lift a collector result, turning a raised error into `parseError`. -/
def orParse : Option α → Except PErr α
  | some a => .ok a
  | none => .error .parseError

/-- The external state a collection cycle reads: the pseudo-file texts,
the NUMA directory listing, the resctrl state, the host-identity facts
and the clock. -/
structure SysInputs where
  proc_cpuinfo : List Char
  proc_stat : List Char
  proc_meminfo : List Char
  node_dirs : List NodeDir
  resctrl : ResctrlFS
  hostname : List Char
  wca_version : List Char
  now : Int

/-- The source's `collect_platform_information(rdt_enabled)`: run the
collectors in source order, build the `Platform`, and `assert` that the
per-CPU usage entry count equals the logical-processor count before
returning the platform, its metrics and its labels. -/
def collect_platform_information (ins : SysInputs) (rdt_enabled : Bool) :
    Except PErr (Platform × List Metric × PyDict (List Char) (List Char)) := do
  let (nr_of_cpus, nr_of_cores, no_of_sockets, topology) ←
    orParse (collect_topology_information ins.proc_cpuinfo)
  let rdt_information ←
    if rdt_enabled then do
      let r ← orParse (_collect_rdt_information ins.resctrl)
      pure (some r)
    else pure none
  let cpus_usage ← orParse (parse_proc_stat ins.proc_stat)
  let total_memory_used ← orParse (parse_proc_meminfo ins.proc_meminfo)
  let (node_free, node_used) ← orParse (parse_node_meminfo ins.node_dirs)
  let node_cpus ← orParse (parse_node_cpus ins.node_dirs)
  let platform : Platform :=
    { sockets := no_of_sockets
      cores := nr_of_cores
      cpus := nr_of_cpus
      topology
      cpu_model := get_cpu_model ins.proc_cpuinfo
      cpus_usage
      total_memory_used
      node_memory_free := node_free
      node_memory_used := node_used
      node_cpus
      timestamp := ins.now
      rdt_information }
  if platform.cpus_usage.length = platform.cpus then
    pure (platform, create_metrics platform,
          create_labels platform ins.hostname ins.wca_version ins.proc_cpuinfo)
  else
    throw .assertionError

/-! Basic facts about digits and decimal rendering. -/

theorem digitVal_digitChar : ∀ d < 10, digitVal (digitChar d) = d := by decide

theorem isDigitChar_digitChar : ∀ d < 10, isDigitChar (digitChar d) = true := by decide

theorem isDigitChar_toNat {c : Char} (h : isDigitChar c = true) :
    48 ≤ c.toNat ∧ c.toNat ≤ 57 := by
  simp only [isDigitChar, Bool.and_eq_true, decide_eq_true_eq] at h
  exact h

theorem ne_of_isDigitChar {c c' : Char} (h : isDigitChar c = true)
    (h' : c'.toNat < 48 ∨ 57 < c'.toNat) : c ≠ c' := by
  obtain ⟨h1, h2⟩ := isDigitChar_toNat h
  intro he
  subst he
  omega

theorem not_isPySpace_of_isDigitChar {c : Char} (h : isDigitChar c = true) :
    isPySpace c = false := by
  by_contra hne
  have hsp : isPySpace c = true := by
    cases hb : isPySpace c
    · exact absurd hb hne
    · rfl
  simp only [isPySpace, Bool.or_eq_true, decide_eq_true_eq] at hsp
  rcases hsp with ((((he | he) | he) | he) | he) | he <;>
    · subst he
      exact absurd h (by decide)

theorem natCharsAux_fuel : ∀ n f1 f2, n < f1 → n < f2 →
    natCharsAux f1 n = natCharsAux f2 n := by
  intro n
  induction n using Nat.strong_induction_on with
  | _ n ih =>
    intro f1 f2 h1 h2
    match f1, h1 with
    | f1 + 1, _ =>
      match f2, h2 with
      | f2 + 1, _ =>
        simp only [natCharsAux]
        by_cases h10 : n < 10
        · simp [h10]
        · have hd : n / 10 < n := Nat.div_lt_self (by omega) (by omega)
          simp only [h10, if_false]
          rw [ih (n / 10) hd f1 f2 (by omega) (by omega)]

theorem natChars_eq (n : Nat) :
    natChars n = if n < 10 then [digitChar n]
      else natChars (n / 10) ++ [digitChar (n % 10)] := by
  by_cases h10 : n < 10
  · simp [natChars, natCharsAux, h10]
  · have hd : n / 10 < n := Nat.div_lt_self (by omega) (by omega)
    simp only [h10, if_false]
    show natCharsAux (n + 1) n = natCharsAux (n / 10 + 1) (n / 10) ++ [digitChar (n % 10)]
    rw [show natCharsAux (n + 1) n = natCharsAux n (n / 10) ++ [digitChar (n % 10)] from by
      simp [natCharsAux, h10]]
    rw [natCharsAux_fuel (n / 10) n (n / 10 + 1) (by omega) (by omega)]

theorem natChars_ne_nil (n : Nat) : natChars n ≠ [] := by
  rw [natChars_eq]
  by_cases h10 : n < 10 <;> simp [h10]

theorem natChars_all_digits (n : Nat) : ∀ c ∈ natChars n, isDigitChar c = true := by
  induction n using Nat.strong_induction_on with
  | _ n ih =>
    rw [natChars_eq]
    by_cases h10 : n < 10
    · simp only [h10, if_true, List.mem_singleton]
      intro c hc
      subst hc
      exact isDigitChar_digitChar n h10
    · have hd : n / 10 < n := Nat.div_lt_self (by omega) (by omega)
      simp only [h10, if_false, List.mem_append, List.mem_singleton]
      intro c hc
      rcases hc with hc | hc
      · exact ih (n / 10) hd c hc
      · subst hc
        exact isDigitChar_digitChar _ (Nat.mod_lt _ (by omega))

theorem digitsVal_append_single (l : List Char) (c : Char) :
    digitsVal (l ++ [c]) = 10 * digitsVal l + digitVal c := by
  simp [digitsVal, List.foldl_append]

theorem digitsVal_natChars (n : Nat) : digitsVal (natChars n) = n := by
  induction n using Nat.strong_induction_on with
  | _ n ih =>
    rw [natChars_eq]
    by_cases h10 : n < 10
    · simp [h10, digitsVal, digitVal_digitChar n h10]
    · have hd : n / 10 < n := Nat.div_lt_self (by omega) (by omega)
      simp only [h10, if_false]
      rw [digitsVal_append_single, ih (n / 10) hd,
        digitVal_digitChar _ (Nat.mod_lt _ (by omega))]
      omega

theorem parseDigits_natChars (n : Nat) : parseDigits (natChars n) = some n := by
  have hd := natChars_all_digits n
  simp only [parseDigits, digitsVal_natChars]
  rw [if_pos]
  exact ⟨natChars_ne_nil n, by simpa [List.all_eq_true] using hd⟩

theorem dropWhile_eq_self_of_all {p : Char → Bool} {l : List Char}
    (h : ∀ c ∈ l, p c = false) : l.dropWhile p = l := by
  cases l with
  | nil => rfl
  | cons x xs =>
    rw [List.dropWhile_cons, h x (by simp)]
    simp

theorem pyStrip_of_no_space {l : List Char} (h : ∀ c ∈ l, isPySpace c = false) :
    pyStrip l = l := by
  unfold pyStrip
  rw [dropWhile_eq_self_of_all h, dropWhile_eq_self_of_all, List.reverse_reverse]
  intro c hc
  exact h c (by simpa using hc)

theorem pyStrip_of_digits {l : List Char} (h : ∀ c ∈ l, isDigitChar c = true) :
    pyStrip l = l :=
  pyStrip_of_no_space (fun c hc => not_isPySpace_of_isDigitChar (h c hc))

theorem pyInt_of_digits {l : List Char} (hne : l ≠ [])
    (h : ∀ c ∈ l, isDigitChar c = true) :
    pyInt l = some ((digitsVal l : Nat) : Int) := by
  unfold pyInt
  rw [pyStrip_of_digits h]
  match l, hne with
  | c :: cs, _ =>
    have hdc : isDigitChar c = true := h c (by simp)
    have hm : c ≠ '-' := ne_of_isDigitChar hdc (Or.inl (by decide))
    have hp : c ≠ '+' := ne_of_isDigitChar hdc (Or.inl (by decide))
    simp only [List.head?_cons]
    rw [if_neg (by simpa using hm), if_neg (by simpa using hp)]
    simp only [parseDigits]
    rw [if_pos ⟨by simp, by simpa [List.all_eq_true] using h⟩]
    rfl

theorem pyInt_natChars (n : Nat) : pyInt (natChars n) = some ((n : Nat) : Int) := by
  rw [pyInt_of_digits (natChars_ne_nil n) (natChars_all_digits n), digitsVal_natChars]

/-! Facts about the split functions. -/

theorem joinWith_cons_of_ne_nil (sep : List Char) (t : List Char)
    {ts : List (List Char)} (h : ts ≠ []) :
    joinWith sep (t :: ts) = t ++ sep ++ joinWith sep ts := by
  match ts, h with
  | t2 :: ts', _ => rfl

theorem splitOnCharGo_nil (c : Char) (acc : List Char) :
    splitOnCharGo c acc [] = [acc.reverse] := rfl

theorem splitOnCharGo_cons_eq (c : Char) (acc : List Char) (x : Char) (xs : List Char) :
    splitOnCharGo c acc (x :: xs) =
      if x = c then acc.reverse :: splitOnCharGo c [] xs
      else splitOnCharGo c (x :: acc) xs := rfl

theorem splitOnCharGo_token {c : Char} {t : List Char} (h : c ∉ t) :
    ∀ (acc rest : List Char),
      splitOnCharGo c acc (t ++ c :: rest) = (acc.reverse ++ t) :: splitOnChar c rest := by
  induction t with
  | nil =>
    intro acc rest
    rw [List.nil_append, splitOnCharGo_cons_eq, if_pos rfl]
    simp [splitOnChar]
  | cons x xs ih =>
    intro acc rest
    have hx : x ≠ c := fun he => h (by simp [he])
    rw [List.cons_append, splitOnCharGo_cons_eq, if_neg hx,
      ih (fun hm => h (by simp [hm])) (x :: acc) rest]
    simp

theorem splitOnCharGo_last {c : Char} {t : List Char} (h : c ∉ t) :
    ∀ acc, splitOnCharGo c acc t = [acc.reverse ++ t] := by
  induction t with
  | nil => intro acc; simp [splitOnCharGo_nil]
  | cons x xs ih =>
    intro acc
    have hx : x ≠ c := fun he => h (by simp [he])
    rw [splitOnCharGo_cons_eq, if_neg hx, ih (fun hm => h (by simp [hm])) (x :: acc)]
    simp

theorem splitOnChar_single {c : Char} {t : List Char} (h : c ∉ t) :
    splitOnChar c t = [t] := by
  unfold splitOnChar
  rw [splitOnCharGo_last h []]
  simp

theorem splitOnChar_joinWith {c : Char} :
    ∀ {ts : List (List Char)}, ts ≠ [] → (∀ t ∈ ts, c ∉ t) →
      splitOnChar c (joinWith [c] ts) = ts := by
  intro ts
  induction ts with
  | nil => intro h; exact absurd rfl h
  | cons t ts' ih =>
    intro _ hall
    by_cases hts : ts' = []
    · subst hts
      exact splitOnChar_single (hall t (by simp))
    · rw [joinWith_cons_of_ne_nil [c] t hts]
      unfold splitOnChar
      rw [List.append_assoc, List.singleton_append,
        splitOnCharGo_token (hall t (by simp)) [] (joinWith [c] ts')]
      rw [show splitOnChar c (joinWith [c] ts') = ts' from
        ih hts (fun u hu => hall u (by simp [hu]))]
      simp

theorem splitWSGo_cons_eq (acc : List Char) (x : Char) (xs : List Char) :
    splitWSGo acc (x :: xs) =
      if isPySpace x then
        (if acc = [] then splitWSGo [] xs else acc.reverse :: splitWSGo [] xs)
      else splitWSGo (x :: acc) xs := rfl

theorem splitWSGo_token {t : List Char} (h : ∀ x ∈ t, isPySpace x = false) :
    ∀ (acc rest : List Char),
      splitWSGo acc (t ++ rest) = splitWSGo (t.reverse ++ acc) rest := by
  induction t with
  | nil => intro acc rest; simp
  | cons x xs ih =>
    intro acc rest
    rw [List.cons_append, splitWSGo_cons_eq, h x (by simp), if_neg (by decide),
      ih (fun y hy => h y (by simp [hy])) (x :: acc) rest]
    simp

theorem splitWSGo_space (acc rest : List Char) :
    splitWSGo acc (' ' :: rest) =
      if acc = [] then splitWSGo [] rest else acc.reverse :: splitWSGo [] rest := by
  simp [splitWSGo, isPySpace]

theorem splitWS_joinWith :
    ∀ {ts : List (List Char)}, (∀ t ∈ ts, t ≠ [] ∧ ∀ x ∈ t, isPySpace x = false) →
      splitWS (joinWith [' '] ts) = ts := by
  intro ts
  induction ts with
  | nil => intro _; rfl
  | cons t ts' ih =>
    intro hall
    obtain ⟨htne, htns⟩ := hall t (by simp)
    by_cases hts : ts' = []
    · subst hts
      show splitWSGo [] (joinWith [' '] [t]) = [t]
      rw [show joinWith [' '] [t] = t ++ [] from by simp [joinWith]]
      rw [splitWSGo_token htns [] []]
      simp [splitWSGo, htne]
    · rw [joinWith_cons_of_ne_nil [' '] t hts]
      show splitWSGo [] (t ++ [' '] ++ joinWith [' '] ts') = t :: ts'
      rw [List.append_assoc, List.singleton_append,
        splitWSGo_token htns [] (' ' :: joinWith [' '] ts'),
        splitWSGo_space]
      rw [if_neg (by simp [htne]), List.append_nil, List.reverse_reverse]
      rw [show splitWSGo [] (joinWith [' '] ts') = ts' from
        ih (fun u hu => hall u (by simp [hu]))]

/-- No two adjacent newline characters (so a two-newline split leaves
the string whole). -/
def noNlNl (l : List Char) : Prop :=
  l.Chain' (fun a b => ¬(a = '\n' ∧ b = '\n'))

theorem splitOnNlNl_cons_cons (x y : Char) (rest : List Char) :
    splitOnNlNl (x :: y :: rest) =
      if x = '\n' ∧ y = '\n' then [] :: splitOnNlNl rest
      else consHead x (splitOnNlNl (y :: rest)) := rfl

theorem splitOnNlNl_single {b : List Char} (h : noNlNl b) :
    splitOnNlNl b = [b] := by
  induction b with
  | nil => rfl
  | cons x xs ih =>
    cases xs with
    | nil => rfl
    | cons y rest =>
      rw [splitOnNlNl_cons_cons,
        if_neg ((List.chain'_cons.mp h).1),
        ih (List.chain'_cons.mp h).2]
      rfl

theorem splitOnNlNl_sep {b : List Char} (h : noNlNl b)
    (hlast : b.getLast? ≠ some '\n') (rest : List Char) :
    splitOnNlNl (b ++ '\n' :: '\n' :: rest) = b :: splitOnNlNl rest := by
  induction b with
  | nil =>
    rw [List.nil_append, splitOnNlNl_cons_cons, if_pos ⟨rfl, rfl⟩]
  | cons x xs ih =>
    cases xs with
    | nil =>
      have hx : x ≠ '\n' := by
        intro he
        exact hlast (by simp [he])
      show splitOnNlNl (x :: '\n' :: '\n' :: rest) = [x] :: splitOnNlNl rest
      rw [splitOnNlNl_cons_cons, if_neg (fun hp => hx hp.1),
        splitOnNlNl_cons_cons, if_pos ⟨rfl, rfl⟩]
      rfl
    | cons y ys =>
      have hchain := List.chain'_cons.mp h
      have hih := ih hchain.2 (by
        intro he
        apply hlast
        rw [List.getLast?_cons_cons]
        exact he)
      show splitOnNlNl (x :: y :: (ys ++ '\n' :: '\n' :: rest)) =
        (x :: y :: ys) :: splitOnNlNl rest
      rw [splitOnNlNl_cons_cons, if_neg hchain.1]
      rw [show splitOnNlNl (y :: (ys ++ '\n' :: '\n' :: rest)) =
        (y :: ys) :: splitOnNlNl rest from hih]
      rfl

theorem noNlNl_of_no_nl {t : List Char} (h : '\n' ∉ t) : noNlNl t := by
  induction t with
  | nil => exact List.chain'_nil
  | cons x xs ih =>
    rw [noNlNl, List.chain'_cons']
    exact ⟨fun y _ hp => h (by simp [hp.1]),
      ih (fun hm => h (by simp [hm]))⟩

theorem getLast?_ne_nl_of_no_nl {t : List Char} (h : '\n' ∉ t) :
    t.getLast? ≠ some '\n' := by
  intro he
  obtain ⟨_, hx⟩ := List.mem_getLast?_eq_getLast (l := t) (x := '\n') he
  exact h (hx ▸ List.getLast_mem _)

theorem joinWith_ne_nil {sep : List Char} {ts : List (List Char)}
    (hne : ts ≠ []) (hhd : ∀ t ∈ ts, t ≠ []) : joinWith sep ts ≠ [] := by
  match ts, hne with
  | [t], _ => exact hhd t (by simp)
  | t :: t2 :: ts', _ =>
    rw [joinWith_cons_of_ne_nil sep t (by simp)]
    have := hhd t (by simp)
    intro hcontra
    rw [List.append_assoc] at hcontra
    exact this (List.append_eq_nil.mp hcontra).1

theorem head?_append_ne_nil {l₁ l₂ : List Char} (h : l₁ ≠ []) :
    (l₁ ++ l₂).head? = l₁.head? := by
  match l₁, h with
  | c :: cs, _ => rfl

theorem head?_joinWith_ne_nl {ts : List (List Char)}
    (h : ∀ t ∈ ts, t ≠ [] ∧ '\n' ∉ t) :
    ∀ y ∈ (joinWith ['\n'] ts).head?, y ≠ '\n' := by
  cases ts with
  | nil => intro y hy; simp [joinWith] at hy
  | cons t2 ts' =>
    obtain ⟨ht2ne, ht2nl⟩ := h t2 (by simp)
    by_cases hts' : ts' = []
    · subst hts'
      intro y hy hnl
      exact ht2nl (hnl ▸ List.mem_of_mem_head? hy)
    · rw [joinWith_cons_of_ne_nil ['\n'] t2 hts', List.append_assoc,
        head?_append_ne_nil ht2ne]
      intro y hy hnl
      exact ht2nl (hnl ▸ List.mem_of_mem_head? hy)

theorem joinWith_nl_lines {lines : List (List Char)}
    (h : ∀ ln ∈ lines, ln ≠ [] ∧ '\n' ∉ ln) :
    noNlNl (joinWith ['\n'] lines) ∧
      (joinWith ['\n'] lines).getLast? ≠ some '\n' := by
  induction lines with
  | nil => exact ⟨List.chain'_nil, by simp [joinWith]⟩
  | cons t ts ih =>
    obtain ⟨htne, htnl⟩ := h t (by simp)
    by_cases hts : ts = []
    · subst hts
      exact ⟨noNlNl_of_no_nl htnl, getLast?_ne_nl_of_no_nl htnl⟩
    · obtain ⟨ihc, ihl⟩ := ih (fun u hu => h u (by simp [hu]))
      have hjoin_ne : joinWith ['\n'] ts ≠ [] :=
        joinWith_ne_nil hts (fun u hu => (h u (by simp [hu])).1)
      rw [joinWith_cons_of_ne_nil ['\n'] t hts, List.append_assoc, List.singleton_append]
      constructor
      · rw [noNlNl, List.chain'_append]
        refine ⟨noNlNl_of_no_nl htnl, ?_, ?_⟩
        · rw [List.chain'_cons']
          refine ⟨?_, ihc⟩
          intro y hy hp
          exact head?_joinWith_ne_nl (fun u hu => h u (by simp [hu])) y hy hp.2
        · intro x hx y _ hp
          exact (getLast?_ne_nl_of_no_nl htnl) (hp.1 ▸ hx)
      · rw [List.getLast?_append_cons]
        rw [show ('\n' :: joinWith ['\n'] ts).getLast? = (joinWith ['\n'] ts).getLast? from ?_]
        · exact ihl
        · match hj : joinWith ['\n'] ts, hjoin_ne with
          | j :: js, _ => rw [List.getLast?_cons_cons]

theorem splitOnNlNl_joinWith {blocks : List (List Char)}
    (hne : blocks ≠ [])
    (h : ∀ b ∈ blocks, noNlNl b ∧ b.getLast? ≠ some '\n') :
    splitOnNlNl (joinWith ['\n', '\n'] blocks) = blocks := by
  induction blocks with
  | nil => exact absurd rfl hne
  | cons b bs ih =>
    by_cases hbs : bs = []
    · subst hbs
      exact splitOnNlNl_single (h b (by simp)).1
    · rw [joinWith_cons_of_ne_nil ['\n', '\n'] b hbs, List.append_assoc]
      rw [show (['\n', '\n'] ++ joinWith ['\n', '\n'] bs : List Char) =
        '\n' :: '\n' :: joinWith ['\n', '\n'] bs from rfl]
      rw [splitOnNlNl_sep (h b (by simp)).1 (h b (by simp)).2]
      rw [ih hbs (fun u hu => h u (by simp [hu]))]

/-! Facts about Option-monad folds and dictionaries. -/

theorem foldlM_opt_nil (f : β → α → Option β) (s : β) :
    List.foldlM f s [] = some s := rfl

theorem foldlM_opt_cons (f : β → α → Option β) (s : β) (x : α) (l : List α) :
    List.foldlM f s (x :: l) = (f s x) >>= (fun s' => List.foldlM f s' l) := by
  simp [List.foldlM]

theorem foldlM_opt_append (f : β → α → Option β) (s : β) (l1 l2 : List α) :
    List.foldlM f s (l1 ++ l2) =
      (List.foldlM f s l1) >>= (fun s' => List.foldlM f s' l2) := by
  induction l1 generalizing s with
  | nil => simp [foldlM_opt_nil, foldlM_opt_cons]
  | cons x xs ih =>
    rw [List.cons_append, foldlM_opt_cons, foldlM_opt_cons]
    cases f s x with
    | none => rfl
    | some s' => simp only [Option.bind_eq_bind, Option.some_bind]; exact ih s'

theorem foldlM_opt_skip {f : β → α → Option β} {t : α}
    (h : ∀ s, f s t = some s) (s : β) (l1 l2 : List α) :
    List.foldlM f s (l1 ++ t :: l2) = List.foldlM f s (l1 ++ l2) := by
  rw [foldlM_opt_append, foldlM_opt_append]
  cases List.foldlM f s l1 with
  | none => rfl
  | some s' =>
    simp only [Option.bind_eq_bind, Option.some_bind, foldlM_opt_cons, h s']

theorem foldlM_opt_fail {f : β → α → Option β} {t : α}
    (h : ∀ s, f s t = none) {l : List α} (hm : t ∈ l) (s : β) :
    List.foldlM f s l = none := by
  induction l generalizing s with
  | nil => simp at hm
  | cons x xs ih =>
    rw [foldlM_opt_cons]
    rcases List.mem_cons.mp hm with he | hmem
    · subst he
      rw [h s]
      rfl
    · cases f s x with
      | none => rfl
      | some s' =>
        simp only [Option.bind_eq_bind, Option.some_bind]
        exact ih hmem s'

theorem dictInsert_fresh [DecidableEq K] {d : PyDict K V} {k : K}
    (h : k ∉ dictKeys d) (v : V) : dictInsert d k v = d ++ [(k, v)] := by
  induction d with
  | nil => rfl
  | cons p rest ih =>
    obtain ⟨k', v'⟩ := p
    have hk : k' ≠ k := fun he => h (by simp [dictKeys, he])
    simp only [dictInsert, if_neg hk, List.cons_append, List.cons.injEq, true_and]
    exact ih (fun hm => h (by simp [dictKeys] at hm ⊢; exact Or.inr hm))

/-! Facts about the list-format codec. -/

theorem mem_natChars_isDigit {c : Char} {n : Nat} (h : c ∈ natChars n) :
    isDigitChar c = true := natChars_all_digits n c h

theorem comma_not_mem_natChars (n : Nat) : (',' : Char) ∉ natChars n := by
  intro hm
  exact absurd (mem_natChars_isDigit hm) (by decide)

theorem dash_not_mem_natChars (n : Nat) : ('-' : Char) ∉ natChars n := by
  intro hm
  exact absurd (mem_natChars_isDigit hm) (by decide)

theorem intChars_nonneg {x : Int} (h : 0 ≤ x) : intChars x = natChars x.toNat := by
  simp [intChars, not_lt.mpr h]

theorem pyInt_intChars_nonneg {x : Int} (h : 0 ≤ x) :
    pyInt (intChars x) = some x := by
  rw [intChars_nonneg h, pyInt_natChars, Int.toNat_of_nonneg h]

theorem decode_token_step_single {t : List Char} (h : ('-' : Char) ∉ t)
    (cores : Finset Int) :
    decode_token_step cores t = (pyInt (pyStrip t)).map (fun n => insert n cores) := by
  unfold decode_token_step
  rw [splitOnChar_single h]
  simp

theorem decode_token_step_range {a b : List Char} (ha : ('-' : Char) ∉ a)
    (hb : ('-' : Char) ∉ b) (cores : Finset Int) :
    decode_token_step cores (a ++ '-' :: b) = (do
      let start ← pyInt (pyStrip a)
      let e ← pyInt (pyStrip b)
      pure ((intRangeIncl start e).foldl (fun cs i => insert i cs) cores)) := by
  unfold decode_token_step
  have hsplit : splitOnChar '-' (a ++ '-' :: b) = [a, b] := by
    unfold splitOnChar
    rw [splitOnCharGo_token ha [] b, splitOnChar_single hb]
    simp
  rw [hsplit]
  simp

theorem decode_token_step_skip3 {t : List Char}
    (h : 3 ≤ (splitOnChar '-' t).length) (cores : Finset Int) :
    decode_token_step cores t = some cores := by
  unfold decode_token_step
  rw [if_neg (by omega), if_neg (by omega)]
  rfl

theorem foldl_insert_finset (l : List Int) (s : Finset Int) :
    l.foldl (fun cs i => insert i cs) s = s ∪ l.toFinset := by
  induction l generalizing s with
  | nil => simp
  | cons x xs ih =>
    rw [List.foldl_cons, ih]
    ext a
    simp

theorem decode_fold_singles {l : List Int} (hnn : ∀ x ∈ l, 0 ≤ x)
    (cores : Finset Int) :
    List.foldlM decode_token_step cores (l.map intChars) =
      some (cores ∪ l.toFinset) := by
  induction l generalizing cores with
  | nil => simp [foldlM_opt_nil]
  | cons x xs ih =>
    have hx : 0 ≤ x := hnn x (by simp)
    rw [List.map_cons, foldlM_opt_cons]
    rw [decode_token_step_single (by
      rw [intChars_nonneg hx]
      exact dash_not_mem_natChars _) cores]
    rw [show pyStrip (intChars x) = intChars x from by
      rw [intChars_nonneg hx]
      exact pyStrip_of_digits (natChars_all_digits _)]
    rw [pyInt_intChars_nonneg hx]
    simp only [Option.map_some', Option.bind_eq_bind, Option.some_bind]
    rw [ih (fun y hy => hnn y (by simp [hy])) (insert x cores)]
    congr 1
    ext a
    simp

/-- The claim C2 theorem below states this round trip.  The encoded
text of a non-negative set is a join of digit tokens. -/
theorem decode_encode_eq (S : Finset Int) (h : ∀ x ∈ S, 0 ≤ x) :
    decode_listformat (encode_listformat S) = some S := by
  by_cases hS : S = ∅
  · subst hS
    rw [show encode_listformat ∅ = [] from by
      simp [encode_listformat, Finset.sort_empty, joinWith]]
    rfl
  · have hsort_nn : ∀ x ∈ S.sort (· ≤ ·), 0 ≤ x := fun x hx =>
      h x ((Finset.mem_sort _).mp hx)
    have hsort_ne : S.sort (· ≤ ·) ≠ [] := by
      intro he
      exact hS (by rw [← Finset.sort_toFinset (· ≤ ·) S, he, List.toFinset_nil])
    have htokens_ne : (S.sort (· ≤ ·)).map intChars ≠ [] := by
      simpa using hsort_ne
    have htokens_props : ∀ t ∈ (S.sort (· ≤ ·)).map intChars,
        t ≠ [] ∧ (',' : Char) ∉ t := by
      intro t ht
      obtain ⟨x, hx, rfl⟩ := List.mem_map.mp ht
      rw [intChars_nonneg (hsort_nn x hx)]
      exact ⟨natChars_ne_nil _, comma_not_mem_natChars _⟩
    have hval_ne : encode_listformat S ≠ [] := by
      unfold encode_listformat
      exact joinWith_ne_nil htokens_ne (fun t ht => (htokens_props t ht).1)
    unfold decode_listformat
    rw [if_neg hval_ne]
    unfold encode_listformat
    rw [splitOnChar_joinWith htokens_ne (fun t ht => (htokens_props t ht).2)]
    rw [decode_fold_singles hsort_nn ∅]
    rw [Finset.empty_union, Finset.sort_toFinset]

theorem decode_skip_token {pre post : List (List Char)} {t : List Char}
    (hall : ∀ u ∈ pre ++ t :: post, u ≠ [] ∧ (',' : Char) ∉ u)
    (hstep : ∀ cores, decode_token_step cores t = some cores) :
    decode_listformat (joinWith [','] (pre ++ t :: post)) =
      decode_listformat (joinWith [','] (pre ++ post)) := by
  by_cases hpp : pre ++ post = []
  · obtain ⟨hpre, hpost⟩ := List.append_eq_nil.mp hpp
    subst hpre hpost
    rw [show (([] : List (List Char)) ++ t :: []) = [t] from rfl,
      show joinWith [','] [t] = t from rfl]
    unfold decode_listformat
    rw [if_neg (hall t (by simp)).1, hpp]
    rw [splitOnChar_single (hall t (by simp)).2]
    rw [foldlM_opt_cons, hstep ∅]
    rfl
  · have hall' : ∀ u ∈ pre ++ post, u ≠ [] ∧ (',' : Char) ∉ u := by
      intro u hu
      apply hall
      rcases List.mem_append.mp hu with hu | hu
      · exact List.mem_append.mpr (Or.inl hu)
      · exact List.mem_append.mpr (Or.inr (by simp [hu]))
    have hne1 : joinWith [','] (pre ++ t :: post) ≠ [] :=
      joinWith_ne_nil (by simp) (fun u hu => (hall u hu).1)
    have hne2 : joinWith [','] (pre ++ post) ≠ [] :=
      joinWith_ne_nil hpp (fun u hu => (hall' u hu).1)
    unfold decode_listformat
    rw [if_neg hne1, if_neg hne2]
    rw [splitOnChar_joinWith (by simp) (fun u hu => (hall u hu).2)]
    rw [splitOnChar_joinWith hpp (fun u hu => (hall' u hu).2)]
    exact foldlM_opt_skip hstep ∅ pre post

/-- Does the dash-split of this token have one or two parts with a part
that is not a Python integer?  (Such a token raises `ValueError`.) -/
def malformed_int_token (t : List Char) : Bool :=
  match splitOnChar '-' t with
  | [b] => pyInt (pyStrip b) = none
  | [b1, b2] => pyInt (pyStrip b1) = none || pyInt (pyStrip b2) = none
  | _ => false

theorem decode_token_step_malformed {t : List Char}
    (h : malformed_int_token t = true) (cores : Finset Int) :
    decode_token_step cores t = none := by
  unfold malformed_int_token at h
  unfold decode_token_step
  match hb : splitOnChar '-' t with
  | [b] =>
    rw [hb] at h
    simp only [decide_eq_true_eq] at h
    simp [h]
  | [b1, b2] =>
    rw [hb] at h
    simp only [Bool.or_eq_true, decide_eq_true_eq] at h
    rcases h with h | h <;> simp [h]
  | [] => rw [hb] at h; simp at h
  | b1 :: b2 :: b3 :: bs => rw [hb] at h; simp at h

/-! Claim theorems for the list-format codec. -/

/-- C2: for every finite set `S` of non-negative integers,
`decode_listformat (encode_listformat S) = S`; and `decode_listformat`
applied to the empty string yields the empty set. -/
theorem C2_encode_decode_roundtrip (S : Finset Int) (h : ∀ x ∈ S, 0 ≤ x) :
    decode_listformat (encode_listformat S) = some S ∧
      decode_listformat [] = some (∅ : Finset Int) :=
  ⟨decode_encode_eq S h, rfl⟩

/-- Witness for C2 at the concrete set of cpu ids 0 and 3. -/
theorem C2_encode_decode_roundtrip_witness :
    decode_listformat (encode_listformat ({0, 3} : Finset Int)) =
        some ({0, 3} : Finset Int) ∧
      decode_listformat [] = some (∅ : Finset Int) :=
  C2_encode_decode_roundtrip {0, 3} (by decide)

/-- C8, counterexample to the claim as stated: the token `1-2-3` is
malformed (more than one dash), yet `decode_listformat` does not raise:
it silently ignores the token and returns the empty set. -/
theorem C8_counterexample :
    decode_listformat "1-2-3".toList = some (∅ : Finset Int) ∧
      decode_listformat "1-2-3".toList ≠ none := by
  constructor
  · rfl
  · rw [show decode_listformat "1-2-3".toList = some (∅ : Finset Int) from rfl]
    exact Option.some_ne_none _

/-- C8 as amended: a token whose dash-split has one or two parts with a
non-integer part makes `decode_listformat` fail with a parse error,
while a token whose dash-split has three or more parts is silently
ignored and the remaining tokens are decoded as usual. -/
theorem C8_malformed_token_amended :
    (∀ value tok, value ≠ [] → tok ∈ splitOnChar ',' value →
      malformed_int_token tok = true → decode_listformat value = none) ∧
    (∀ pre post t, (∀ u ∈ pre ++ t :: post, u ≠ [] ∧ (',' : Char) ∉ u) →
      3 ≤ (splitOnChar '-' t).length →
      decode_listformat (joinWith [','] (pre ++ t :: post)) =
        decode_listformat (joinWith [','] (pre ++ post))) := by
  constructor
  · intro value tok hne hmem hbad
    unfold decode_listformat
    rw [if_neg hne]
    exact foldlM_opt_fail (fun s => decode_token_step_malformed hbad s) hmem ∅
  · intro pre post t hall h3
    exact decode_skip_token hall (decode_token_step_skip3 h3)

/-- Witness for the amended C8: `1,x` has the non-integer token `x`, so
decoding fails. -/
theorem C8_malformed_token_amended_witness :
    decode_listformat "1,x".toList = none :=
  C8_malformed_token_amended.1 "1,x".toList "x".toList (by decide) (by decide)
    (by decide)

/-- C10: a range token whose start exceeds its end does not make
`decode_listformat` fail; it contributes no elements, and the remaining
tokens are decoded as usual.  The input text is any comma-join of
well-formed tokens with such a reversed range token among them. -/
theorem C10_reversed_range_ignored (pre post : List (List Char)) (s e : Nat)
    (hall : ∀ u ∈ pre ++ post, u ≠ [] ∧ (',' : Char) ∉ u) (hlt : e < s) :
    decode_listformat
        (joinWith [','] (pre ++ (natChars s ++ '-' :: natChars e) :: post)) =
      decode_listformat (joinWith [','] (pre ++ post)) := by
  apply decode_skip_token
  · intro u hu
    rcases List.mem_append.mp hu with hu | hu
    · exact hall u (List.mem_append.mpr (Or.inl hu))
    · rcases List.mem_cons.mp hu with he | hu
      · subst he
        refine ⟨by simp [natChars_ne_nil s], ?_⟩
        intro hm
        rcases List.mem_append.mp hm with hm | hm
        · exact comma_not_mem_natChars s hm
        · rcases List.mem_cons.mp hm with he | hm
          · exact absurd he (by decide)
          · exact comma_not_mem_natChars e hm
      · exact hall u (List.mem_append.mpr (Or.inr hu))
  · intro cores
    rw [decode_token_step_range (dash_not_mem_natChars s) (dash_not_mem_natChars e)
      cores]
    rw [pyStrip_of_digits (natChars_all_digits s),
      pyStrip_of_digits (natChars_all_digits e),
      pyInt_natChars, pyInt_natChars]
    have hempty : intRangeIncl (s : Int) (e : Int) = [] := by
      unfold intRangeIncl
      rw [show ((e : Int) + 1 - (s : Int)).toNat = 0 from by omega]
      rfl
    simp [hempty]

/-- Witness for C10: decoding `7,5-3` equals decoding `7`. -/
theorem C10_reversed_range_ignored_witness :
    decode_listformat (joinWith [','] ([['7']] ++ (natChars 5 ++ '-' :: natChars 3) :: [])) =
      decode_listformat (joinWith [','] ([['7']] ++ [])) :=
  C10_reversed_range_ignored [['7']] [] 5 3 (by decide) (by decide)

/-! Facts about `startswith`. -/

theorem startsWithL_extend {p q : List Char} (rest : List Char)
    (h : startsWithL p q = true) : startsWithL p (q ++ rest) = true := by
  induction p generalizing q with
  | nil => rfl
  | cons pc ps ih =>
    cases q with
    | nil => exact absurd h (by simp [startsWithL])
    | cons x xs =>
      simp only [startsWithL, Bool.and_eq_true, decide_eq_true_eq] at h
      rw [List.cons_append]
      simp only [startsWithL, Bool.and_eq_true, decide_eq_true_eq]
      exact ⟨h.1, ih h.2⟩

/-- True when the two strings differ at some position before either
ends (so no extension of the second can start with the first). -/
def properMismatch : List Char → List Char → Bool
  | p :: ps, x :: xs => if p = x then properMismatch ps xs else true
  | _, _ => false

theorem startsWithL_of_properMismatch {p q : List Char}
    (h : properMismatch p q = true) (rest : List Char) :
    startsWithL p (q ++ rest) = false := by
  induction p generalizing q with
  | nil => exact absurd h (by simp [properMismatch])
  | cons pc ps ih =>
    cases q with
    | nil => exact absurd h (by simp [properMismatch])
    | cons x xs =>
      rw [List.cons_append]
      by_cases hpx : pc = x
      · subst hpx
        rw [show properMismatch (pc :: ps) (pc :: xs) = properMismatch ps xs from by
          simp [properMismatch]] at h
        simp only [startsWithL, Bool.and_eq_false_iff]
        right
        exact ih h
      · simp [startsWithL, hpx]

/-! The memory-counter claim (C4). -/

/-- One canonical memory-counter line: a key label (ending in a colon),
the value, and the `kB` unit, space-separated. -/
def meminfoLine (key : List Char) (v : Nat) : List Char :=
  key ++ ' ' :: (natChars v ++ ' ' :: "kB".toList)

theorem meminfoLine_eq_join (key : List Char) (v : Nat) :
    meminfoLine key v = joinWith [' '] [key, natChars v, "kB".toList] := by
  simp [meminfoLine, joinWith]

theorem splitWS_meminfoLine {key : List Char} (hk : key ≠ [])
    (hks : ∀ x ∈ key, isPySpace x = false) (v : Nat) :
    splitWS (meminfoLine key v) = [key, natChars v, "kB".toList] := by
  rw [meminfoLine_eq_join]
  apply splitWS_joinWith
  intro u hu
  rcases List.mem_cons.mp hu with rfl | hu
  · exact ⟨hk, hks⟩
  rcases List.mem_cons.mp hu with rfl | hu
  · exact ⟨natChars_ne_nil v,
      fun x hx => not_isPySpace_of_isDigitChar (natChars_all_digits v x hx)⟩
  rcases List.mem_cons.mp hu with rfl | hu
  · exact ⟨by decide, by decide⟩
  · simp at hu

theorem get_value_meminfoLine {key : List Char} (hk : key ≠ [])
    (hks : ∀ x ∈ key, isPySpace x = false) (v : Nat) :
    get_value_from_line (meminfoLine key v) = some ((v : Nat) : Int) := by
  unfold get_value_from_line
  rw [splitWS_meminfoLine hk hks v]
  show (some (natChars v)) >>= pyInt = _
  simp [pyInt_natChars]

/-- The four counter keys `parse_proc_meminfo` reacts to. -/
inductive MemKey where
  | total
  | free
  | buffers
  | cached
deriving DecidableEq

/-- The key label at the start of each counter line. -/
def keyStr : MemKey → List Char
  | .total => "MemTotal:".toList
  | .free => "MemFree:".toList
  | .buffers => "Buffers:".toList
  | .cached => "Cached:".toList

/-- Which state component a line with the given key overwrites (this is
what the elif chain of the source does with a matching line). -/
def applyKey : MemKey → Int × Int × Int × Int → Int → Int × Int × Int × Int
  | .total, (_, f, b, c), v => (v, f, b, c)
  | .free, (t, _, b, c), v => (t, v, b, c)
  | .buffers, (t, f, _, c), v => (t, f, v, c)
  | .cached, (t, f, b, _), v => (t, f, b, v)

theorem meminfo_step_key (k : MemKey) (st : Int × Int × Int × Int) (v : Nat) :
    meminfo_line_step st (meminfoLine (keyStr k) v) =
      some (applyKey k st ((v : Nat) : Int)) := by
  obtain ⟨t, f, b, c⟩ := st
  have hgv := fun hk hks => @get_value_meminfoLine (keyStr k) hk hks v
  cases k
  · rw [show meminfoLine (keyStr .total) v =
      "MemTotal:".toList ++ (' ' :: (natChars v ++ ' ' :: "kB".toList)) from rfl]
    unfold meminfo_line_step
    rw [show ("MemTotal:".toList ++ (' ' :: (natChars v ++ ' ' :: "kB".toList)))
        = "MemTotal".toList ++ (':' :: ' ' :: (natChars v ++ ' ' :: "kB".toList)) from rfl]
    rw [startsWithL_extend _ (by decide)]
    have := hgv (by decide) (by decide)
    rw [show meminfoLine (keyStr .total) v = "MemTotal".toList ++
        (':' :: ' ' :: (natChars v ++ ' ' :: "kB".toList)) from rfl] at this
    simp only [if_true]
    rw [this]
    rfl
  · unfold meminfo_line_step
    rw [show meminfoLine (keyStr .free) v =
      "MemFree:".toList ++ (' ' :: (natChars v ++ ' ' :: "kB".toList)) from rfl]
    rw [startsWithL_of_properMismatch (by decide)]
    rw [show ("MemFree:".toList ++ (' ' :: (natChars v ++ ' ' :: "kB".toList)))
        = "MemFree".toList ++ (':' :: ' ' :: (natChars v ++ ' ' :: "kB".toList)) from rfl]
    rw [startsWithL_extend _ (by decide)]
    have := hgv (by decide) (by decide)
    rw [show meminfoLine (keyStr .free) v = "MemFree".toList ++
        (':' :: ' ' :: (natChars v ++ ' ' :: "kB".toList)) from rfl] at this
    simp only [Bool.false_eq_true, if_false, if_true]
    rw [this]
    rfl
  · unfold meminfo_line_step
    rw [show meminfoLine (keyStr .buffers) v =
      "Buffers:".toList ++ (' ' :: (natChars v ++ ' ' :: "kB".toList)) from rfl]
    rw [startsWithL_of_properMismatch (p := "MemTotal".toList) (by decide),
      startsWithL_of_properMismatch (p := "MemFree".toList) (by decide)]
    rw [show ("Buffers:".toList ++ (' ' :: (natChars v ++ ' ' :: "kB".toList)))
        = "Buffers".toList ++ (':' :: ' ' :: (natChars v ++ ' ' :: "kB".toList)) from rfl]
    rw [startsWithL_extend _ (by decide)]
    have := hgv (by decide) (by decide)
    rw [show meminfoLine (keyStr .buffers) v = "Buffers".toList ++
        (':' :: ' ' :: (natChars v ++ ' ' :: "kB".toList)) from rfl] at this
    simp only [Bool.false_eq_true, if_false, if_true]
    rw [this]
    rfl
  · unfold meminfo_line_step
    rw [show meminfoLine (keyStr .cached) v =
      "Cached:".toList ++ (' ' :: (natChars v ++ ' ' :: "kB".toList)) from rfl]
    rw [startsWithL_of_properMismatch (p := "MemTotal".toList) (by decide),
      startsWithL_of_properMismatch (p := "MemFree".toList) (by decide),
      startsWithL_of_properMismatch (p := "Buffers".toList) (by decide)]
    rw [show ("Cached:".toList ++ (' ' :: (natChars v ++ ' ' :: "kB".toList)))
        = "Cached".toList ++ (':' :: ' ' :: (natChars v ++ ' ' :: "kB".toList)) from rfl]
    rw [startsWithL_extend _ (by decide)]
    have := hgv (by decide) (by decide)
    rw [show meminfoLine (keyStr .cached) v = "Cached".toList ++
        (':' :: ' ' :: (natChars v ++ ' ' :: "kB".toList)) from rfl] at this
    simp only [Bool.false_eq_true, if_false, if_true]
    rw [this]
    rfl

theorem nl_not_mem_meminfoLine (k : MemKey) (v : Nat) :
    ('\n' : Char) ∉ meminfoLine (keyStr k) v := by
  intro hm
  unfold meminfoLine at hm
  rcases List.mem_append.mp hm with hm | hm
  · cases k <;> revert hm <;> decide
  · rcases List.mem_cons.mp hm with he | hm
    · exact absurd he (by decide)
    rcases List.mem_append.mp hm with hm | hm
    · exact absurd (mem_natChars_isDigit hm) (by decide)
    rcases List.mem_cons.mp hm with he | hm
    · exact absurd he (by decide)
    · revert hm; decide

theorem meminfo_fold_script (ls : List (MemKey × Nat)) (st : Int × Int × Int × Int) :
    List.foldlM meminfo_line_step st
        (ls.map (fun p => meminfoLine (keyStr p.1) p.2)) =
      some (ls.foldl (fun st p => applyKey p.1 st ((p.2 : Nat) : Int)) st) := by
  induction ls generalizing st with
  | nil => rfl
  | cons p ps ih =>
    rw [List.map_cons, foldlM_opt_cons, meminfo_step_key p.1 st p.2]
    simp only [Option.bind_eq_bind, Option.some_bind]
    rw [ih (applyKey p.1 st ((p.2 : Nat) : Int))]
    rfl

theorem parse_proc_meminfo_script (ls : List (MemKey × Nat)) :
    parse_proc_meminfo (joinWith ['\n'] (ls.map (fun p => meminfoLine (keyStr p.1) p.2))) =
      some (((ls.foldl (fun st p => applyKey p.1 st ((p.2 : Nat) : Int))
          ((0 : Int), 0, 0, 0)).1 -
        (ls.foldl (fun st p => applyKey p.1 st ((p.2 : Nat) : Int))
          ((0 : Int), 0, 0, 0)).2.1 -
        (ls.foldl (fun st p => applyKey p.1 st ((p.2 : Nat) : Int))
          ((0 : Int), 0, 0, 0)).2.2.1 -
        (ls.foldl (fun st p => applyKey p.1 st ((p.2 : Nat) : Int))
          ((0 : Int), 0, 0, 0)).2.2.2) * 2 ^ 10) := by
  by_cases hne : ls = []
  · subst hne
    rfl
  · unfold parse_proc_meminfo
    rw [splitOnChar_joinWith (by simpa using hne) (fun u hu => by
      obtain ⟨p, _, rfl⟩ := List.mem_map.mp hu
      exact nl_not_mem_meminfoLine p.1 p.2)]
    rw [meminfo_fold_script]
    rfl

/-- The memory-counter text of the C4 family: one line per present
key, in the canonical `MemTotal`/`MemFree`/`Buffers`/`Cached` order. -/
def buildMeminfo (t f b c : Option Nat) : List Char :=
  joinWith ['\n']
    ((((t.map (Prod.mk MemKey.total)).toList ++ (f.map (Prod.mk MemKey.free)).toList ++
      (b.map (Prod.mk MemKey.buffers)).toList ++ (c.map (Prod.mk MemKey.cached)).toList)).map
      (fun p => meminfoLine (keyStr p.1) p.2))

/-- C4: for every memory-counter text (one line per present key, any of
the four keys possibly missing and then treated as zero),
`parse_proc_meminfo` returns `(MemTotal - MemFree - Buffers - Cached)`
shifted into bytes, unclamped; and the 1000/400/100/100 example yields
409600. -/
theorem C4_parse_proc_meminfo :
    (∀ t f b c : Option Nat,
      parse_proc_meminfo (buildMeminfo t f b c) =
        some ((((t.getD 0 : Nat) : Int) - ((f.getD 0 : Nat) : Int) -
          ((b.getD 0 : Nat) : Int) - ((c.getD 0 : Nat) : Int)) * 2 ^ 10)) ∧
    parse_proc_meminfo (buildMeminfo (some 1000) (some 400) (some 100) (some 100)) =
      some 409600 := by
  have hgen : ∀ t f b c : Option Nat,
      parse_proc_meminfo (buildMeminfo t f b c) =
        some ((((t.getD 0 : Nat) : Int) - ((f.getD 0 : Nat) : Int) -
          ((b.getD 0 : Nat) : Int) - ((c.getD 0 : Nat) : Int)) * 2 ^ 10) := by
    intro t f b c
    unfold buildMeminfo
    rw [parse_proc_meminfo_script]
    cases t <;> cases f <;> cases b <;> cases c <;>
      simp [applyKey, Option.getD]
  refine ⟨hgen, ?_⟩
  rw [hgen (some 1000) (some 400) (some 100) (some 100)]
  norm_num

/-! The per-CPU busy-time claim (C3). -/

/-- One aggregate-statistics line: the `cpu` token with the given id
suffix, then the numeric fields, single-space-separated. -/
def statLine (suffix : List Char) (row : List Nat) : List Char :=
  joinWith [' '] (("cpu".toList ++ suffix) :: row.map natChars)

/-- The per-CPU lines for ids `k, k+1, ...`, one row of fields each. -/
def statLinesFrom : Nat → List (List Nat) → List (List Char)
  | _, [] => []
  | k, r :: rs => statLine (natChars k) r :: statLinesFrom (k + 1) rs

/-- The aggregate-statistics text of the C3 family: one bare `cpu`
line, then one `cpu0`, `cpu1`, ... line per row. -/
def buildProcStat (agg : List Nat) (rows : List (List Nat)) : List Char :=
  joinWith ['\n'] (statLine [] agg :: statLinesFrom 0 rows)

/-- The per-CPU busy time of one line: the sum of the six counted
fields (positions 1,2,3,6,7,8 of the split line are positions
0,1,2,5,6,7 of the row). -/
def busyOf (row : List Nat) : Int :=
  ((row.getD 0 0 : Nat) : Int) + ((row.getD 1 0 : Nat) : Int) +
    ((row.getD 2 0 : Nat) : Int) + ((row.getD 5 0 : Nat) : Int) +
    ((row.getD 6 0 : Nat) : Int) + ((row.getD 7 0 : Nat) : Int)

theorem statLine_tokens_ok (suffix : List Char) (row : List Nat)
    (hs : ∀ x ∈ suffix, isDigitChar x = true) :
    ∀ t ∈ ("cpu".toList ++ suffix) :: row.map natChars,
      t ≠ [] ∧ (∀ x ∈ t, isPySpace x = false) ∧ ('\n' : Char) ∉ t := by
  intro t ht
  rcases List.mem_cons.mp ht with rfl | ht
  · refine ⟨by simp, ?_, ?_⟩
    · intro x hx
      rcases List.mem_append.mp hx with hx | hx
      · exact (by decide : ∀ x ∈ "cpu".toList, isPySpace x = false) x hx
      · exact not_isPySpace_of_isDigitChar (hs x hx)
    · intro hm
      rcases List.mem_append.mp hm with hm | hm
      · exact (by decide : ('\n' : Char) ∉ "cpu".toList) hm
      · exact absurd (hs _ hm) (by decide)
  · obtain ⟨r, _, rfl⟩ := List.mem_map.mp ht
    refine ⟨natChars_ne_nil r, ?_, ?_⟩
    · exact fun x hx => not_isPySpace_of_isDigitChar (natChars_all_digits r x hx)
    · intro hm
      exact absurd (mem_natChars_isDigit hm) (by decide)

theorem statLine_ne_nil (suffix : List Char) (row : List Nat)
    (hs : ∀ x ∈ suffix, isDigitChar x = true) : statLine suffix row ≠ [] :=
  joinWith_ne_nil (by simp)
    (fun t ht => (statLine_tokens_ok suffix row hs t ht).1)

theorem nl_not_mem_joinWith_space {ts : List (List Char)}
    (h : ∀ t ∈ ts, ('\n' : Char) ∉ t) : ('\n' : Char) ∉ joinWith [' '] ts := by
  induction ts with
  | nil => simp [joinWith]
  | cons t ts' ih =>
    by_cases hts' : ts' = []
    · subst hts'
      exact h t (by simp)
    · rw [joinWith_cons_of_ne_nil [' '] t hts']
      intro hm
      rcases List.mem_append.mp hm with hm | hm
      · rcases List.mem_append.mp hm with hm | hm
        · exact h t (by simp) hm
        · simp at hm
      · exact ih (fun u hu => h u (by simp [hu])) hm

theorem nl_not_mem_statLine (suffix : List Char) (row : List Nat)
    (hs : ∀ x ∈ suffix, isDigitChar x = true) :
    ('\n' : Char) ∉ statLine suffix row :=
  nl_not_mem_joinWith_space
    (fun t ht => (statLine_tokens_ok suffix row hs t ht).2.2)

theorem startsWithL_cpu_statLine (suffix : List Char) (row : List Nat) :
    startsWithL "cpu".toList (statLine suffix row) = true := by
  unfold statLine
  cases row with
  | nil =>
    show startsWithL "cpu".toList ("cpu".toList ++ suffix) = true
    exact startsWithL_extend suffix (by decide)
  | cons r rs =>
    rw [joinWith_cons_of_ne_nil [' '] _ (by simp),
      List.append_assoc, List.append_assoc "cpu".toList]
    exact startsWithL_extend _ (by decide)

theorem splitOnChar_space_statLine (suffix : List Char) (row : List Nat)
    (hs : ∀ x ∈ suffix, isDigitChar x = true) :
    splitOnChar ' ' (statLine suffix row) =
      ("cpu".toList ++ suffix) :: row.map natChars := by
  unfold statLine
  apply splitOnChar_joinWith (by simp)
  intro t ht hsp
  exact absurd (((statLine_tokens_ok suffix row hs) t ht).2.1 ' ' hsp) (by decide)

theorem proc_stat_step_agg (agg : List Nat) (d : PyDict Int Int) :
    proc_stat_line_step d (statLine [] agg) = some d := by
  unfold proc_stat_line_step
  rw [if_pos ⟨statLine_ne_nil [] agg (by simp), startsWithL_cpu_statLine [] agg⟩]
  rw [splitOnChar_space_statLine [] agg (by simp)]
  simp

theorem get?_map_natChars {row : List Nat} {j : Nat} (hj : j < row.length) :
    (row.map natChars).get? j = some (natChars (row.getD j 0)) := by
  rw [List.get?_map, show row.get? j = some (row.getD j 0) from by
    rw [List.getD_eq_getElem?_getD, List.get?_eq_getElem?, List.getElem?_eq_getElem hj]
    rfl]
  rfl

theorem proc_stat_step_cpu (k : Nat) {row : List Nat} (hlen : 8 ≤ row.length)
    (d : PyDict Int Int) :
    proc_stat_line_step d (statLine (natChars k) row) =
      some (dictInsert d ((k : Nat) : Int) (busyOf row)) := by
  unfold proc_stat_line_step
  rw [if_pos ⟨statLine_ne_nil _ row (natChars_all_digits k),
    startsWithL_cpu_statLine _ row⟩,
    splitOnChar_space_statLine _ row (natChars_all_digits k)]
  simp only [List.headD_cons]
  rw [show ("cpu".toList ++ natChars k).drop 3 = natChars k from
    List.drop_left "cpu".toList (natChars k)]
  rw [if_neg (natChars_ne_nil k)]
  rw [show (("cpu".toList ++ natChars k) :: row.map natChars).get? 1 =
      some (natChars (row.getD 0 0)) from get?_map_natChars (j := 0) (by omega),
    show (("cpu".toList ++ natChars k) :: row.map natChars).get? 2 =
      some (natChars (row.getD 1 0)) from get?_map_natChars (j := 1) (by omega),
    show (("cpu".toList ++ natChars k) :: row.map natChars).get? 3 =
      some (natChars (row.getD 2 0)) from get?_map_natChars (j := 2) (by omega),
    show (("cpu".toList ++ natChars k) :: row.map natChars).get? 6 =
      some (natChars (row.getD 5 0)) from get?_map_natChars (j := 5) (by omega),
    show (("cpu".toList ++ natChars k) :: row.map natChars).get? 7 =
      some (natChars (row.getD 6 0)) from get?_map_natChars (j := 6) (by omega),
    show (("cpu".toList ++ natChars k) :: row.map natChars).get? 8 =
      some (natChars (row.getD 7 0)) from get?_map_natChars (j := 7) (by omega)]
  simp [pyInt_natChars, busyOf]

/-- The entries `parse_proc_stat` accumulates for per-CPU lines with
ids `k, k+1, ...`. -/
def statEntries : Nat → List (List Nat) → PyDict Int Int
  | _, [] => []
  | k, r :: rs => (((k : Nat) : Int), busyOf r) :: statEntries (k + 1) rs

theorem fold_statLines {rows : List (List Nat)} (hlen : ∀ r ∈ rows, 8 ≤ r.length) :
    ∀ (k : Nat) (d : PyDict Int Int), (∀ p ∈ d, p.1 < ((k : Nat) : Int)) →
      List.foldlM proc_stat_line_step d (statLinesFrom k rows) =
        some (d ++ statEntries k rows) := by
  induction rows with
  | nil =>
    intro k d _
    simp [statLinesFrom, statEntries, foldlM_opt_nil]
  | cons r rs ih =>
    intro k d hd
    show List.foldlM proc_stat_line_step d
      (statLine (natChars k) r :: statLinesFrom (k + 1) rs) = _
    rw [foldlM_opt_cons, proc_stat_step_cpu k (hlen r (by simp)) d]
    simp only [Option.bind_eq_bind, Option.some_bind]
    rw [dictInsert_fresh (k := ((k : Nat) : Int)) (by
      intro hm
      obtain ⟨p, hp, hpk⟩ := List.mem_map.mp hm
      exact absurd (hpk ▸ hd p hp) (lt_irrefl _)) (busyOf r)]
    rw [ih (fun r' hr' => hlen r' (by simp [hr'])) (k + 1)
      (d ++ [(((k : Nat) : Int), busyOf r)]) (by
        intro p hp
        rcases List.mem_append.mp hp with hp | hp
        · calc p.1 < ((k : Nat) : Int) := hd p hp
            _ < (((k + 1 : Nat) : Nat) : Int) := by push_cast; omega
        · rw [List.mem_singleton.mp hp]
          push_cast
          omega)]
    rw [show statEntries k (r :: rs) =
      (((k : Nat) : Int), busyOf r) :: statEntries (k + 1) rs from rfl]
    simp

theorem statEntries_eq_zipWith : ∀ (rows : List (List Nat)) (k : Nat),
    statEntries k rows =
      List.zipWith (fun i r => (((i : Nat) : Int), busyOf r))
        (List.range' k rows.length) rows := by
  intro rows
  induction rows with
  | nil => intro k; rfl
  | cons r rs ih =>
    intro k
    rw [show (r :: rs).length = rs.length + 1 from rfl, List.range'_succ]
    rw [show statEntries k (r :: rs) =
      (((k : Nat) : Int), busyOf r) :: statEntries (k + 1) rs from rfl]
    rw [List.zipWith_cons_cons, ih (k + 1)]

theorem nl_not_mem_statLinesFrom : ∀ (rows : List (List Nat)) (k : Nat),
    ∀ l ∈ statLinesFrom k rows, ('\n' : Char) ∉ l := by
  intro rows
  induction rows with
  | nil => intro k l hl; simp [statLinesFrom] at hl
  | cons r rs ih =>
    intro k l hl
    rcases List.mem_cons.mp hl with rfl | hl
    · exact nl_not_mem_statLine _ r (natChars_all_digits k)
    · exact ih (k + 1) l hl

/-- C3: for every aggregate-CPU-statistics text with one bare `cpu`
line and one numeric line per CPU id `0..N-1` (each with at least the
8 indexed fields), `parse_proc_stat` returns exactly `N` entries, keyed
`0..N-1` in order, each valued with the sum of the fields at positions
1,2,3,6,7,8 (user, nice, system, irq, softirq, steal) — the idle,
iowait, guest and guest-nice fields are excluded, and the bare `cpu`
line contributes no entry. -/
theorem C3_parse_proc_stat (agg : List Nat) (rows : List (List Nat))
    (hlen : ∀ r ∈ rows, 8 ≤ r.length) :
    parse_proc_stat (buildProcStat agg rows) =
      some (List.zipWith (fun i r => (((i : Nat) : Int), busyOf r))
        (List.range rows.length) rows) := by
  unfold parse_proc_stat buildProcStat
  rw [splitOnChar_joinWith (by simp) (by
    intro t ht
    rcases List.mem_cons.mp ht with rfl | ht
    · exact nl_not_mem_statLine [] agg (by simp)
    · exact nl_not_mem_statLinesFrom rows 0 t ht)]
  rw [foldlM_opt_cons, proc_stat_step_agg]
  simp only [Option.bind_eq_bind, Option.some_bind]
  rw [fold_statLines hlen 0 [] (by simp)]
  rw [statEntries_eq_zipWith rows 0, List.nil_append, List.range_eq_range']

/-- Witness for C3 at one aggregate line and one `cpu0` line with ten
fields. -/
theorem C3_parse_proc_stat_witness :
    parse_proc_stat (buildProcStat [1, 2, 3, 4, 5, 6, 7, 8, 9, 10]
        [[10, 20, 30, 40, 50, 60, 70, 80, 90, 100]]) =
      some (List.zipWith (fun i r => (((i : Nat) : Int), busyOf r))
        (List.range 1) [[10, 20, 30, 40, 50, 60, 70, 80, 90, 100]]) :=
  C3_parse_proc_stat [1, 2, 3, 4, 5, 6, 7, 8, 9, 10]
    [[10, 20, 30, 40, 50, 60, 70, 80, 90, 100]] (by decide)

/-! The NUMA memory-info claim (C7). -/

/-- One canonical node memory-info line, e.g. `Node 7 MemFree: 100 kB`
(5 whitespace-delimited fields; the 2nd names the node id). -/
def nodeMemLine (nid : Nat) (label : List Char) (v : Nat) : List Char :=
  joinWith [' '] ["Node".toList, natChars nid, label, natChars v, "kB".toList]

/-- A node directory of the C7 family: the name carries `suffix`, the
memory-info file names `nid` on its `MemFree:`/`MemUsed:` lines, plus a
line without five fields (which must be ignored). -/
def buildNodeDir (suffix nid freeKB usedKB : Nat) : NodeDir :=
  ⟨"node".toList ++ natChars suffix,
   joinWith ['\n'] [nodeMemLine nid "MemFree:".toList freeKB,
     nodeMemLine nid "MemUsed:".toList usedKB, "garbage".toList],
   []⟩

theorem splitWS_nodeMemLine {label : List Char} (hl : label ≠ [])
    (hls : ∀ x ∈ label, isPySpace x = false) (nid v : Nat) :
    splitWS (nodeMemLine nid label v) =
      ["Node".toList, natChars nid, label, natChars v, "kB".toList] := by
  unfold nodeMemLine
  apply splitWS_joinWith
  intro u hu
  rcases List.mem_cons.mp hu with rfl | hu
  · exact ⟨by decide, by decide⟩
  rcases List.mem_cons.mp hu with rfl | hu
  · exact ⟨natChars_ne_nil _,
      fun x hx => not_isPySpace_of_isDigitChar (natChars_all_digits _ x hx)⟩
  rcases List.mem_cons.mp hu with rfl | hu
  · exact ⟨hl, hls⟩
  rcases List.mem_cons.mp hu with rfl | hu
  · exact ⟨natChars_ne_nil _,
      fun x hx => not_isPySpace_of_isDigitChar (natChars_all_digits _ x hx)⟩
  rcases List.mem_cons.mp hu with rfl | hu
  · exact ⟨by decide, by decide⟩
  · simp at hu

theorem node_line_step_free (nid v : Nat) (acc : PyDict Int Int × PyDict Int Int) :
    node_meminfo_line_step acc (nodeMemLine nid "MemFree:".toList v) =
      some (dictInsert acc.1 ((nid : Nat) : Int) (((v : Nat) : Int) * 2 ^ 10), acc.2) := by
  unfold node_meminfo_line_step
  rw [splitWS_nodeMemLine (by decide) (by decide) nid v]
  rw [if_neg (by simp)]
  rw [show (["Node".toList, natChars nid, "MemFree:".toList, natChars v,
    "kB".toList].getD 2 []) = "MemFree:".toList from rfl]
  rw [show (["Node".toList, natChars nid, "MemFree:".toList, natChars v,
    "kB".toList].getD 1 []) = natChars nid from rfl]
  rw [show (["Node".toList, natChars nid, "MemFree:".toList, natChars v,
    "kB".toList].getD 3 []) = natChars v from rfl]
  rw [pyInt_natChars nid, pyInt_natChars v]
  simp [Option.pure_def, (by decide : ¬("MemFree:".toList = "MemUsed:".toList))]

theorem node_line_step_used (nid v : Nat) (acc : PyDict Int Int × PyDict Int Int) :
    node_meminfo_line_step acc (nodeMemLine nid "MemUsed:".toList v) =
      some (acc.1, dictInsert acc.2 ((nid : Nat) : Int) (((v : Nat) : Int) * 2 ^ 10)) := by
  unfold node_meminfo_line_step
  rw [splitWS_nodeMemLine (by decide) (by decide) nid v]
  rw [if_neg (by simp)]
  rw [show (["Node".toList, natChars nid, "MemUsed:".toList, natChars v,
    "kB".toList].getD 2 []) = "MemUsed:".toList from rfl]
  rw [show (["Node".toList, natChars nid, "MemUsed:".toList, natChars v,
    "kB".toList].getD 1 []) = natChars nid from rfl]
  rw [show (["Node".toList, natChars nid, "MemUsed:".toList, natChars v,
    "kB".toList].getD 3 []) = natChars v from rfl]
  rw [pyInt_natChars nid, pyInt_natChars v]
  simp [Option.pure_def, (by decide : ¬("MemUsed:".toList = "MemFree:".toList))]

theorem node_line_step_garbage (acc : PyDict Int Int × PyDict Int Int) :
    node_meminfo_line_step acc "garbage".toList = some acc := by
  unfold node_meminfo_line_step
  rw [show splitWS "garbage".toList = ["garbage".toList] from by decide]
  rw [if_pos (by simp)]
  rfl

theorem node_dir_step_build (suffix nid freeKB usedKB : Nat)
    (acc : PyDict Int Int × PyDict Int Int) :
    node_meminfo_dir_step acc (buildNodeDir suffix nid freeKB usedKB) =
      some (dictInsert acc.1 ((nid : Nat) : Int) (((freeKB : Nat) : Int) * 2 ^ 10),
        dictInsert acc.2 ((nid : Nat) : Int) (((usedKB : Nat) : Int) * 2 ^ 10)) := by
  unfold node_meminfo_dir_step buildNodeDir
  rw [if_pos (startsWithL_extend _ (by decide))]
  rw [show (⟨"node".toList ++ natChars suffix,
    joinWith ['\n'] [nodeMemLine nid "MemFree:".toList freeKB,
      nodeMemLine nid "MemUsed:".toList usedKB, "garbage".toList], []⟩ :
    NodeDir).meminfo = joinWith ['\n'] [nodeMemLine nid "MemFree:".toList freeKB,
      nodeMemLine nid "MemUsed:".toList usedKB, "garbage".toList] from rfl]
  rw [splitOnChar_joinWith (by simp) (by
    intro t ht
    rcases List.mem_cons.mp ht with rfl | ht
    · exact nl_not_mem_joinWith_space (by
        intro u hu
        rcases List.mem_cons.mp hu with rfl | hu
        · decide
        rcases List.mem_cons.mp hu with rfl | hu
        · intro hm; exact absurd (mem_natChars_isDigit hm) (by decide)
        rcases List.mem_cons.mp hu with rfl | hu
        · decide
        rcases List.mem_cons.mp hu with rfl | hu
        · intro hm; exact absurd (mem_natChars_isDigit hm) (by decide)
        rcases List.mem_cons.mp hu with rfl | hu
        · decide
        · simp at hu)
    rcases List.mem_cons.mp ht with rfl | ht
    · exact nl_not_mem_joinWith_space (by
        intro u hu
        rcases List.mem_cons.mp hu with rfl | hu
        · decide
        rcases List.mem_cons.mp hu with rfl | hu
        · intro hm; exact absurd (mem_natChars_isDigit hm) (by decide)
        rcases List.mem_cons.mp hu with rfl | hu
        · decide
        rcases List.mem_cons.mp hu with rfl | hu
        · intro hm; exact absurd (mem_natChars_isDigit hm) (by decide)
        rcases List.mem_cons.mp hu with rfl | hu
        · decide
        · simp at hu)
    rcases List.mem_cons.mp ht with rfl | ht
    · decide
    · simp at ht)]
  rw [foldlM_opt_cons, node_line_step_free nid freeKB acc]
  simp only [Option.bind_eq_bind, Option.some_bind]
  rw [foldlM_opt_cons, node_line_step_used nid usedKB _]
  simp only [Option.bind_eq_bind, Option.some_bind]
  rw [foldlM_opt_cons, node_line_step_garbage _]
  simp [foldlM_opt_nil]

theorem fold_nodeDirs (entries : List (Nat × Nat × Nat × Nat))
    (hnodup : (entries.map (fun e => e.2.1)).Nodup) :
    ∀ (nf nu : PyDict Int Int),
      (∀ e ∈ entries, ((e.2.1 : Nat) : Int) ∉ dictKeys nf ∧
        ((e.2.1 : Nat) : Int) ∉ dictKeys nu) →
      List.foldlM node_meminfo_dir_step (nf, nu)
          (entries.map (fun e => buildNodeDir e.1 e.2.1 e.2.2.1 e.2.2.2)) =
        some (nf ++ entries.map (fun e => (((e.2.1 : Nat) : Int),
            ((e.2.2.1 : Nat) : Int) * 2 ^ 10)),
          nu ++ entries.map (fun e => (((e.2.1 : Nat) : Int),
            ((e.2.2.2 : Nat) : Int) * 2 ^ 10))) := by
  induction entries with
  | nil => intro nf nu _; simp [foldlM_opt_nil]
  | cons e es ih =>
    intro nf nu hfresh
    rw [List.map_cons, foldlM_opt_cons, node_dir_step_build e.1 e.2.1 e.2.2.1 e.2.2.2]
    simp only [Option.bind_eq_bind, Option.some_bind]
    rw [dictInsert_fresh (hfresh e (by simp)).1,
      dictInsert_fresh (hfresh e (by simp)).2]
    rw [List.map_cons, List.nodup_cons] at hnodup
    rw [ih hnodup.2 _ _ (by
      intro e' he'
      have hne : ((e'.2.1 : Nat) : Int) ≠ ((e.2.1 : Nat) : Int) := by
        intro hcast
        have : e'.2.1 = e.2.1 := by exact_mod_cast hcast
        exact hnodup.1 (this ▸ List.mem_map_of_mem (fun x => x.2.1) he')
      constructor
      · intro hm
        rw [show dictKeys (nf ++ [(((e.2.1 : Nat) : Int),
            ((e.2.2.1 : Nat) : Int) * 2 ^ 10)]) =
          dictKeys nf ++ [((e.2.1 : Nat) : Int)] from by simp [dictKeys]] at hm
        rcases List.mem_append.mp hm with hm | hm
        · exact (hfresh e' (by simp [he'])).1 hm
        · exact hne (List.mem_singleton.mp hm)
      · intro hm
        rw [show dictKeys (nu ++ [(((e.2.1 : Nat) : Int),
            ((e.2.2.2 : Nat) : Int) * 2 ^ 10)]) =
          dictKeys nu ++ [((e.2.1 : Nat) : Int)] from by simp [dictKeys]] at hm
        rcases List.mem_append.mp hm with hm | hm
        · exact (hfresh e' (by simp [he'])).2 hm
        · exact hne (List.mem_singleton.mp hm))]
    simp

/-- C7, counterexample to the claim as stated: a directory named
`node5` whose memory-info line names node `7` produces a free-memory
mapping keyed by `7` — the integer in the line's 2nd field — not by the
directory-name suffix `5`. -/
theorem C7_counterexample :
    parse_node_meminfo [⟨"node5".toList, "Node 7 MemFree: 100 kB".toList, []⟩] =
      some ([((7 : Int), 102400)], []) ∧ (7 : Int) ≠ 5 := by
  constructor
  · decide
  · decide

/-- C7 as amended: within each 5-field line the 3rd field selects the
free or used mapping and the recorded value is the 4th field shifted
left by 10 bits; lines with any other field count are ignored; but the
mapping keys are the integer 2nd field of each contributing line (the
node id the line itself names), not the directory-name suffix. -/
theorem C7_node_meminfo_amended (entries : List (Nat × Nat × Nat × Nat))
    (hnodup : (entries.map (fun e => e.2.1)).Nodup) :
    parse_node_meminfo
        (entries.map (fun e => buildNodeDir e.1 e.2.1 e.2.2.1 e.2.2.2)) =
      some (entries.map (fun e => (((e.2.1 : Nat) : Int),
          ((e.2.2.1 : Nat) : Int) * 2 ^ 10)),
        entries.map (fun e => (((e.2.1 : Nat) : Int),
          ((e.2.2.2 : Nat) : Int) * 2 ^ 10))) := by
  unfold parse_node_meminfo
  rw [fold_nodeDirs entries hnodup [] [] (by simp [dictKeys])]
  simp

/-- Witness for the amended C7: one directory named `node5` whose lines
name node `7`, free 100 KiB and used 200 KiB. -/
theorem C7_node_meminfo_amended_witness :
    parse_node_meminfo ([(5, 7, 100, 200)].map
        (fun e => buildNodeDir e.1 e.2.1 e.2.2.1 e.2.2.2)) =
      some ([(5, 7, 100, 200)].map (fun e => (((e.2.1 : Nat) : Int),
          ((e.2.2.1 : Nat) : Int) * 2 ^ 10)),
        [(5, 7, 100, 200)].map (fun e => (((e.2.1 : Nat) : Int),
          ((e.2.2.2 : Nat) : Int) * 2 ^ 10))) :=
  C7_node_meminfo_amended [(5, 7, 100, 200)] (by decide)

/-! The RDT-information claim (C6). -/

/-- C6: every RDTInformation the detector returns has its cache-control
parameter fields populated exactly when cache control is enabled, its
bandwidth-control parameter fields populated exactly when bandwidth
control is enabled, and, when both controls are enabled, reports as
`num_closids` the minimum of the two subsystems' class-of-service
counts. -/
theorem C6_rdt_information_invariant (fs : ResctrlFS) (rdt : RDTInformation)
    (h : _collect_rdt_information fs = some rdt) :
    ((rdt.cbm_mask.isSome ∧ rdt.min_cbm_bits.isSome ∧ rdt.num_closids.isSome) ↔
      rdt.rdt_cache_control_enabled = true) ∧
    ((rdt.mb_bandwidth_gran.isSome ∧ rdt.mb_min_bandwidth.isSome) ↔
      rdt.rdt_mb_control_enabled = true) ∧
    (∀ c m : Int, rdt.rdt_cache_control_enabled = true →
      rdt.rdt_mb_control_enabled = true →
      (_read_value fs.l3_num_closids >>= pyInt) = some c →
      (_read_value fs.mb_num_closids_file >>= pyInt) = some m →
      rdt.num_closids = some (min c m)) := by
  cases hsch : fs.schemata with
  | none =>
    rw [_collect_rdt_information, hsch] at h
    simp [_read_value] at h
  | some sch =>
    rw [_collect_rdt_information, hsch] at h
    simp only [_read_value, Option.map_some', Option.bind_eq_bind,
      Option.some_bind] at h
    by_cases hcache : containsSub "L3".toList (pyStrip sch) = true
    · by_cases hmb : containsSub "MB:".toList (pyStrip sch) = true
      · simp only [hcache, hmb, Bool.and_self, if_true] at h
        obtain ⟨cm, hcm, h⟩ := Option.bind_eq_some.mp h
        obtain ⟨mcb, hmcb, h⟩ := Option.bind_eq_some.mp h
        obtain ⟨nc, hnc, h⟩ := Option.bind_eq_some.mp h
        simp only [Option.pure_def, Option.some_bind] at h
        obtain ⟨g, hg, h⟩ := Option.bind_eq_some.mp h
        obtain ⟨mmb, hmmb, h⟩ := Option.bind_eq_some.mp h
        obtain ⟨mnc, hmnc, h⟩ := Option.bind_eq_some.mp h
        simp only [Option.pure_def, Option.some_bind, Option.some.injEq] at h
        subst h
        refine ⟨by simp, by simp, ?_⟩
        intro c m _ _ hc hm
        have hcnc : some nc = some c := hnc.symm.trans hc
        have hmmn : some mnc = some m := hmnc.symm.trans hm
        rw [Option.some.injEq] at hcnc hmmn
        subst hcnc hmmn
        simp [inf_eq_min]
      · simp only [hcache, hmb, Bool.and_false, if_true, if_false,
          Bool.false_eq_true, Bool.and_eq_true, and_false, false_and] at h
        obtain ⟨cm, hcm, h⟩ := Option.bind_eq_some.mp h
        obtain ⟨mcb, hmcb, h⟩ := Option.bind_eq_some.mp h
        obtain ⟨nc, hnc, h⟩ := Option.bind_eq_some.mp h
        simp only [Option.pure_def, Option.some_bind, Option.some.injEq] at h
        subst h
        refine ⟨by simp, ?_, ?_⟩
        · constructor
          · intro hcontra
            exact absurd hcontra.1 (by simp)
          · intro hcontra
            simp at hcontra
        · intro c m _ hmb' _ _
          simp at hmb'
    · by_cases hmb : containsSub "MB:".toList (pyStrip sch) = true
      · simp only [hcache, hmb, if_true, if_false, Bool.false_eq_true,
          Bool.and_eq_true, and_false, false_and] at h
        simp only [Option.pure_def, Option.some_bind] at h
        obtain ⟨g, hg, h⟩ := Option.bind_eq_some.mp h
        obtain ⟨mmb, hmmb, h⟩ := Option.bind_eq_some.mp h
        obtain ⟨mnc, hmnc, h⟩ := Option.bind_eq_some.mp h
        simp only [Option.pure_def, Option.some_bind, Option.some.injEq] at h
        subst h
        refine ⟨?_, by simp, ?_⟩
        · constructor
          · intro hcontra
            exact absurd hcontra.1 (by simp)
          · intro hcontra
            simp at hcontra
        · intro c m hcache' _ _ _
          simp at hcache'
      · simp only [hcache, hmb, if_true, if_false, Bool.false_eq_true,
          Bool.and_eq_true, and_false, false_and] at h
        simp only [Option.pure_def, Option.some_bind, Option.some.injEq] at h
        subst h
        refine ⟨?_, ?_, ?_⟩
        · constructor
          · intro hcontra
            exact absurd hcontra.1 (by simp)
          · intro hcontra
            simp at hcontra
        · constructor
          · intro hcontra
            exact absurd hcontra.1 (by simp)
          · intro hcontra
            simp at hcontra
        · intro c m hcache' _ _ _
          simp at hcache'

/-- Witness for C6 at a resctrl state with both controls enabled
(cache 8 classes, bandwidth 4 classes: the reported count is 4). -/
theorem C6_rdt_information_invariant_witness :
    ((((some "fff".toList : Option (List Char)).isSome ∧
        (some "2".toList : Option (List Char)).isSome ∧
        (some (4 : Int) : Option Int).isSome) ↔ (true : Bool) = true) ∧
      (((some (10 : Int) : Option Int).isSome ∧
        (some (20 : Int) : Option Int).isSome) ↔ (true : Bool) = true) ∧
      (∀ c m : Int, (true : Bool) = true → (true : Bool) = true →
        (_read_value (some "8".toList) >>= pyInt) = some c →
        (_read_value (some "4".toList) >>= pyInt) = some m →
        (some (4 : Int) : Option Int) = some (min c m))) :=
  C6_rdt_information_invariant
    ⟨true, true, some "L3:fff;MB:100".toList, some "fff".toList, some "2".toList,
      some "8".toList, some "10".toList, some "20".toList, some "4".toList⟩
    ⟨true, true, true, true, some "fff".toList, some "2".toList, some 4,
      some 10, some 20⟩
    (by decide)

/-! The measurement-point claim (C9). -/

/-- C9: `create_metrics` is deterministic (equal Platforms yield equal
lists) and, for a valid Platform (one whose busy-time mapping has one
entry per logical CPU), returns exactly one memory-used point plus
exactly `cpus` per-CPU points, each per-CPU point labeled with its CPU
id and valued with that CPU's busy time. -/
theorem C9_create_metrics (p : Platform) (h : p.cpus_usage.length = p.cpus) :
    (∀ q : Platform, q = p → create_metrics q = create_metrics p) ∧
    (create_metrics p).length = 1 + p.cpus ∧
    ((create_metrics p).countP (fun m => decide (m.name = MetricName.mem_usage))) = 1 ∧
    ((create_metrics p).countP
      (fun m => decide (m.name = MetricName.cpu_usage_per_cpu))) = p.cpus ∧
    (∀ m ∈ create_metrics p, m.name = MetricName.cpu_usage_per_cpu →
      ∃ kv ∈ p.cpus_usage, m.value = kv.2 ∧
        m.labels = [("cpu".toList, intChars kv.1)]) := by
  refine ⟨fun q hq => hq ▸ rfl, ?_, ?_, ?_, ?_⟩
  · rw [create_metrics]
    simp [h]
    omega
  · rw [create_metrics]
    simp only [List.countP_append, List.countP_cons, List.countP_map]
    rw [show (List.countP ((fun m => decide (m.name = MetricName.mem_usage)) ∘
        fun kv => Metric.create_metric_with_metadata MetricName.cpu_usage_per_cpu kv.2
          [("cpu".toList, intChars kv.1)]) p.cpus_usage) =
      List.countP (fun _ => false) p.cpus_usage from by
        apply List.countP_congr
        intro kv _
        simp [Metric.create_metric_with_metadata]]
    simp [List.countP_false, Metric.create_metric_with_metadata]
  · rw [create_metrics]
    simp only [List.countP_append, List.countP_cons, List.countP_map]
    rw [show (List.countP ((fun m => decide (m.name = MetricName.cpu_usage_per_cpu)) ∘
        fun kv => Metric.create_metric_with_metadata MetricName.cpu_usage_per_cpu kv.2
          [("cpu".toList, intChars kv.1)]) p.cpus_usage) =
      List.countP (fun _ => true) p.cpus_usage from by
        apply List.countP_congr
        intro kv _
        simp [Metric.create_metric_with_metadata]]
    simp [List.countP_true, Metric.create_metric_with_metadata, h]
  · intro m hm hname
    rw [create_metrics] at hm
    rcases List.mem_append.mp hm with hm | hm
    · rw [List.mem_singleton.mp hm] at hname
      exact absurd hname (by simp [Metric.create_metric_with_metadata])
    · obtain ⟨kv, hkv, rfl⟩ := List.mem_map.mp hm
      exact ⟨kv, hkv, rfl, rfl⟩

/-- Witness for C9 at a one-CPU platform. -/
theorem C9_create_metrics_witness :
    (∀ q : Platform, q = (⟨1, 1, 1, [(0, [(0, [0])])], "m".toList, [(0, 5)], 42,
        [], [], [], 0, none⟩ : Platform) →
      create_metrics q = create_metrics ⟨1, 1, 1, [(0, [(0, [0])])], "m".toList,
        [(0, 5)], 42, [], [], [], 0, none⟩) ∧
    (create_metrics ⟨1, 1, 1, [(0, [(0, [0])])], "m".toList, [(0, 5)], 42,
      [], [], [], 0, none⟩).length = 1 + 1 ∧
    ((create_metrics ⟨1, 1, 1, [(0, [(0, [0])])], "m".toList, [(0, 5)], 42,
      [], [], [], 0, none⟩).countP
        (fun m => decide (m.name = MetricName.mem_usage))) = 1 ∧
    ((create_metrics ⟨1, 1, 1, [(0, [(0, [0])])], "m".toList, [(0, 5)], 42,
      [], [], [], 0, none⟩).countP
        (fun m => decide (m.name = MetricName.cpu_usage_per_cpu))) = 1 ∧
    (∀ m ∈ create_metrics (⟨1, 1, 1, [(0, [(0, [0])])], "m".toList, [(0, 5)], 42,
        [], [], [], 0, none⟩ : Platform), m.name = MetricName.cpu_usage_per_cpu →
      ∃ kv ∈ ([(0, 5)] : PyDict Int Int), m.value = kv.2 ∧
        m.labels = [("cpu".toList, intChars kv.1)]) :=
  C9_create_metrics ⟨1, 1, 1, [(0, [(0, [0])])], "m".toList, [(0, 5)], 42,
    [], [], [], 0, none⟩ rfl

/-! The snapshot-assembly claim (C1). -/

/-- C1: when every collector succeeds, the collection entry point
raises the fatal assertion (and returns no Platform) exactly when the
number of entries in the per-CPU busy-time mapping differs from the
logical-processor count; when the counts are equal a Platform is
returned. -/
theorem C1_collect_platform_assertion (ins : SysInputs) (rdt_enabled : Bool)
    (ncpus ncores nsock : Nat) (topo : Topology) (usage : PyDict Int Int)
    (mem : Int) (nf nu : PyDict Int Int) (ncpu : PyDict Int (Finset Int))
    (rdtOpt : Option RDTInformation)
    (htopo : collect_topology_information ins.proc_cpuinfo =
      some (ncpus, ncores, nsock, topo))
    (hrdt : (if rdt_enabled then (_collect_rdt_information ins.resctrl).map some
      else some none) = some rdtOpt)
    (husage : parse_proc_stat ins.proc_stat = some usage)
    (hmem : parse_proc_meminfo ins.proc_meminfo = some mem)
    (hnode : parse_node_meminfo ins.node_dirs = some (nf, nu))
    (hncpu : parse_node_cpus ins.node_dirs = some ncpu) :
    (usage.length ≠ ncpus →
      collect_platform_information ins rdt_enabled = .error .assertionError) ∧
    (usage.length = ncpus → ∃ metrics labels,
      collect_platform_information ins rdt_enabled =
        .ok (⟨nsock, ncores, ncpus, topo, get_cpu_model ins.proc_cpuinfo, usage,
          mem, nf, nu, ncpu, ins.now, rdtOpt⟩, metrics, labels)) := by
  have hmain : collect_platform_information ins rdt_enabled =
      (if usage.length = ncpus then
        .ok (⟨nsock, ncores, ncpus, topo, get_cpu_model ins.proc_cpuinfo, usage,
            mem, nf, nu, ncpu, ins.now, rdtOpt⟩,
          create_metrics ⟨nsock, ncores, ncpus, topo,
            get_cpu_model ins.proc_cpuinfo, usage, mem, nf, nu, ncpu, ins.now, rdtOpt⟩,
          create_labels ⟨nsock, ncores, ncpus, topo, get_cpu_model ins.proc_cpuinfo,
            usage, mem, nf, nu, ncpu, ins.now, rdtOpt⟩ ins.hostname ins.wca_version
            ins.proc_cpuinfo)
      else .error .assertionError) := by
    unfold collect_platform_information
    rw [htopo, husage, hmem, hnode, hncpu]
    cases rdt_enabled with
    | false =>
      rw [if_neg (by simp)] at hrdt
      rw [Option.some.injEq] at hrdt
      subst hrdt
      simp only [orParse, if_neg (by simp : ¬(false = true))]
      rfl
    | true =>
      rw [if_pos rfl] at hrdt
      obtain ⟨r, hr, hrq⟩ := Option.map_eq_some'.mp hrdt
      subst hrq
      rw [hr]
      simp only [orParse, if_pos (rfl : (true : Bool) = true)]
      rfl
  constructor
  · intro hne
    rw [hmain, if_neg hne]
  · intro he
    rw [hmain, if_pos he]
    exact ⟨_, _, rfl⟩

/-- Witness for C1: a consistent one-CPU reading produces a Platform. -/
theorem C1_collect_platform_assertion_witness :
    ∃ metrics labels,
      collect_platform_information
        ⟨"processor: 0\nphysical id: 0\ncore id: 0".toList,
         "cpu 1 2 3 4 5 6 7 8 9 10\ncpu0 1 2 3 4 5 6 7 8 9 10".toList,
         "MemTotal: 100 kB".toList, [],
         ⟨false, false, none, none, none, none, none, none, none⟩,
         "h".toList, "v".toList, 0⟩ false =
      .ok (⟨1, 1, 1, [(0, [(0, [0])])],
        get_cpu_model "processor: 0\nphysical id: 0\ncore id: 0".toList,
        [(0, 1 + 2 + 3 + 6 + 7 + 8)], 102400, [], [], [], 0, none⟩,
        metrics, labels) :=
  (C1_collect_platform_assertion
    ⟨"processor: 0\nphysical id: 0\ncore id: 0".toList,
     "cpu 1 2 3 4 5 6 7 8 9 10\ncpu0 1 2 3 4 5 6 7 8 9 10".toList,
     "MemTotal: 100 kB".toList, [],
     ⟨false, false, none, none, none, none, none, none, none⟩,
     "h".toList, "v".toList, 0⟩ false
    1 1 1 [(0, [(0, [0])])] [(0, 1 + 2 + 3 + 6 + 7 + 8)] 102400 [] [] [] none
    rfl rfl rfl rfl rfl rfl).2 rfl

/-! Theory of sorted-then-grouped lists (the topology claim, C5). -/

theorem pyGroupBy_cons (key : α → Int) (x : α) (xs : List α) :
    pyGroupBy key (x :: xs) =
      match pyGroupBy key xs with
      | [] => [(key x, [x])]
      | (k, g) :: rest =>
        if key x = k then (key x, x :: g) :: rest
        else (key x, [x]) :: (k, g) :: rest := rfl

theorem pyGroupBy_cons_of_nil {key : α → Int} {xs : List α}
    (hg : pyGroupBy key xs = []) (x : α) :
    pyGroupBy key (x :: xs) = [(key x, [x])] := by
  rw [pyGroupBy_cons, hg]

theorem pyGroupBy_cons_of_cons {key : α → Int} {xs : List α} {k : Int}
    {g : List α} {rest : List (Int × List α)}
    (hg : pyGroupBy key xs = (k, g) :: rest) (x : α) :
    pyGroupBy key (x :: xs) =
      if key x = k then (key x, x :: g) :: rest
      else (key x, [x]) :: (k, g) :: rest := by
  rw [pyGroupBy_cons, hg]

theorem pyGroupBy_nil_iff (key : α → Int) (l : List α) :
    pyGroupBy key l = [] ↔ l = [] := by
  cases l with
  | nil => simp [pyGroupBy]
  | cons x xs =>
    constructor
    · intro h
      exfalso
      cases hg : pyGroupBy key xs with
      | nil => rw [pyGroupBy_cons_of_nil hg] at h; simp at h
      | cons kg rest =>
        obtain ⟨k, g⟩ := kg
        rw [pyGroupBy_cons_of_cons hg] at h
        by_cases hk : key x = k <;> simp [hk] at h
    · intro h
      simp at h

theorem pyGroupBy_join (key : α → Int) (l : List α) :
    ((pyGroupBy key l).map Prod.snd).join = l := by
  induction l with
  | nil => rfl
  | cons x xs ih =>
    cases hg : pyGroupBy key xs with
    | nil =>
      have hxs : xs = [] := (pyGroupBy_nil_iff key xs).mp hg
      subst hxs
      simp [pyGroupBy_cons_of_nil hg x]
    | cons kg rest =>
      obtain ⟨k, g⟩ := kg
      rw [pyGroupBy_cons_of_cons hg x]
      rw [hg] at ih
      by_cases hk : key x = k
      · rw [if_pos hk]
        simp only [List.map_cons, List.join_cons] at ih ⊢
        rw [List.cons_append, ih]
      · rw [if_neg hk]
        simp only [List.map_cons, List.join_cons] at ih ⊢
        rw [List.singleton_append, ih]

theorem pyGroupBy_key_const (key : α → Int) (l : List α) :
    ∀ kg ∈ pyGroupBy key l, ∀ x ∈ kg.2, key x = kg.1 := by
  induction l with
  | nil => intro kg h; simp [pyGroupBy] at h
  | cons x xs ih =>
    intro kg hkg y hy
    cases hg : pyGroupBy key xs with
    | nil =>
      rw [pyGroupBy_cons_of_nil hg] at hkg
      simp only [List.mem_singleton] at hkg
      subst hkg
      simp only [List.mem_singleton] at hy
      subst hy
      rfl
    | cons kg' rest =>
      obtain ⟨k, g⟩ := kg'
      rw [pyGroupBy_cons_of_cons hg] at hkg
      by_cases hk : key x = k
      · rw [if_pos hk] at hkg
        rcases List.mem_cons.mp hkg with rfl | hkg
        · rcases List.mem_cons.mp hy with rfl | hy
          · rfl
          · rw [show ((key x, x :: g) : Int × List α).1 = key x from rfl, hk]
            exact ih (k, g) (hg ▸ List.mem_cons_self _ _) y hy
        · exact ih kg (hg ▸ List.mem_cons_of_mem _ hkg) y hy
      · rw [if_neg hk] at hkg
        rcases List.mem_cons.mp hkg with rfl | hkg
        · simp only [List.mem_singleton] at hy
          subst hy
          rfl
        · exact ih kg (hg ▸ hkg) y hy

theorem pyGroupBy_group_ne_nil (key : α → Int) (l : List α) :
    ∀ kg ∈ pyGroupBy key l, kg.2 ≠ [] := by
  induction l with
  | nil => intro kg h; simp [pyGroupBy] at h
  | cons x xs ih =>
    intro kg hkg
    cases hg : pyGroupBy key xs with
    | nil =>
      rw [pyGroupBy_cons_of_nil hg] at hkg
      simp only [List.mem_singleton] at hkg
      subst hkg
      simp
    | cons kg' rest =>
      obtain ⟨k, g⟩ := kg'
      rw [pyGroupBy_cons_of_cons hg] at hkg
      by_cases hk : key x = k
      · rw [if_pos hk] at hkg
        rcases List.mem_cons.mp hkg with rfl | hkg
        · simp
        · exact ih kg (hg ▸ List.mem_cons_of_mem _ hkg)
      · rw [if_neg hk] at hkg
        rcases List.mem_cons.mp hkg with rfl | hkg
        · simp
        · exact ih kg (hg ▸ hkg)

theorem pyGroupBy_head_key (key : α → Int) (x : α) (xs : List α) :
    ∃ g rest, pyGroupBy key (x :: xs) = (key x, g) :: rest := by
  cases hg : pyGroupBy key xs with
  | nil => exact ⟨[x], [], pyGroupBy_cons_of_nil hg x⟩
  | cons kg rest =>
    obtain ⟨k, g⟩ := kg
    by_cases hk : key x = k
    · exact ⟨x :: g, rest, by rw [pyGroupBy_cons_of_cons hg x, if_pos hk]⟩
    · exact ⟨[x], (k, g) :: rest, by rw [pyGroupBy_cons_of_cons hg x, if_neg hk]⟩

theorem pyGroupBy_mem_of_mem_group {key : α → Int} {l : List α}
    {kg : Int × List α} (hkg : kg ∈ pyGroupBy key l) {x : α} (hx : x ∈ kg.2) :
    x ∈ l := by
  rw [← pyGroupBy_join key l]
  exact List.mem_join.mpr ⟨kg.2, List.mem_map_of_mem Prod.snd hkg, hx⟩

theorem pyGroupBy_exists_group_of_mem {key : α → Int} {l : List α} {y : α}
    (hy : y ∈ l) : ∃ kg ∈ pyGroupBy key l, y ∈ kg.2 := by
  rw [← pyGroupBy_join key l] at hy
  obtain ⟨g, hg, hyg⟩ := List.mem_join.mp hy
  obtain ⟨kg, hkg, rfl⟩ := List.mem_map.mp hg
  exact ⟨kg, hkg, hyg⟩

theorem pyGroupBy_key_is_member_key {key : α → Int} {l : List α}
    {kg : Int × List α} (hkg : kg ∈ pyGroupBy key l) :
    ∃ y ∈ l, key y = kg.1 := by
  obtain ⟨y, hy⟩ := List.exists_mem_of_ne_nil kg.2
    (pyGroupBy_group_ne_nil key l kg hkg)
  exact ⟨y, pyGroupBy_mem_of_mem_group hkg hy, pyGroupBy_key_const key l kg hkg y hy⟩

theorem pyGroupBy_keys_chain {key : α → Int} : ∀ {l : List α},
    l.Pairwise (fun a b => key a ≤ key b) →
    ((pyGroupBy key l).map Prod.fst).Chain' (· < ·) := by
  intro l
  induction l with
  | nil => intro _; simp [pyGroupBy]
  | cons x xs ih =>
    intro h
    rw [List.pairwise_cons] at h
    obtain ⟨hx, hxs⟩ := h
    cases hg : pyGroupBy key xs with
    | nil =>
      rw [pyGroupBy_cons_of_nil hg]
      simp
    | cons kg rest =>
      obtain ⟨k, g⟩ := kg
      have ihc := ih hxs
      rw [hg] at ihc
      have hk_le : key x ≤ k := by
        obtain ⟨y, hymem, hykey⟩ :=
          pyGroupBy_key_is_member_key (hg ▸ List.mem_cons_self (k, g) rest)
        have hykey' : key y = k := hykey
        exact hykey' ▸ hx y hymem
      by_cases hk : key x = k
      · rw [pyGroupBy_cons_of_cons hg x, if_pos hk]
        rw [List.map_cons] at ihc ⊢
        rw [show ((key x, x :: g) : Int × List α).1 = key x from rfl, hk]
        exact ihc
      · rw [pyGroupBy_cons_of_cons hg x, if_neg hk]
        rw [List.map_cons, List.map_cons]
        rw [List.map_cons] at ihc
        exact List.Chain'.cons (lt_of_le_of_ne hk_le hk) ihc

theorem pyGroupBy_keys_min {key : α → Int} {xs : List α} {k : Int} {g : List α}
    {rest : List (Int × List α)} (hxs : xs.Pairwise (fun a b => key a ≤ key b))
    (hg : pyGroupBy key xs = (k, g) :: rest) :
    ∀ kg ∈ (k, g) :: rest, k ≤ kg.1 := by
  have hc := pyGroupBy_keys_chain hxs
  rw [hg, List.map_cons] at hc
  rw [List.chain'_iff_pairwise, List.pairwise_cons] at hc
  intro kg hkg
  rcases List.mem_cons.mp hkg with rfl | hkg
  · exact le_refl _
  · exact le_of_lt (hc.1 kg.1 (List.mem_map_of_mem Prod.fst hkg))

theorem pyGroupBy_member_key_ge {key : α → Int} {xs : List α} {k : Int}
    {g : List α} {rest : List (Int × List α)}
    (hxs : xs.Pairwise (fun a b => key a ≤ key b))
    (hg : pyGroupBy key xs = (k, g) :: rest) :
    ∀ y ∈ xs, k ≤ key y := by
  intro y hy
  obtain ⟨kg, hkg, hykg⟩ := @pyGroupBy_exists_group_of_mem _ key _ _ hy
  rw [pyGroupBy_key_const key xs kg hkg y hykg]
  exact pyGroupBy_keys_min hxs hg kg (hg ▸ hkg)

theorem pyGroupBy_filter_sorted {key : α → Int} : ∀ {l : List α},
    l.Pairwise (fun a b => key a ≤ key b) →
    ∀ kg ∈ pyGroupBy key l, kg.2 = l.filter (fun y => decide (key y = kg.1)) := by
  intro l
  induction l with
  | nil => intro _ kg hkg; simp [pyGroupBy] at hkg
  | cons x xs ih =>
    intro h kg hkg
    rw [List.pairwise_cons] at h
    obtain ⟨hx, hxs⟩ := h
    cases hg : pyGroupBy key xs with
    | nil =>
      have hxs0 : xs = [] := (pyGroupBy_nil_iff key xs).mp hg
      subst hxs0
      rw [pyGroupBy_cons_of_nil hg] at hkg
      simp only [List.mem_singleton] at hkg
      subst hkg
      simp
    | cons kg0 rest =>
      obtain ⟨k, g⟩ := kg0
      have hk_le : key x ≤ k := by
        obtain ⟨y, hymem, hykey⟩ :=
          pyGroupBy_key_is_member_key (hg ▸ List.mem_cons_self (k, g) rest)
        have hykey' : key y = k := hykey
        exact hykey' ▸ hx y hymem
      have hge := pyGroupBy_member_key_ge hxs hg
      by_cases hk : key x = k
      · rw [pyGroupBy_cons_of_cons hg x, if_pos hk] at hkg
        rcases List.mem_cons.mp hkg with rfl | hkg
        · have hgf : g = xs.filter (fun y => decide (key y = k)) :=
            ih hxs (k, g) (hg ▸ List.mem_cons_self _ _)
          show x :: g = (x :: xs).filter (fun y => decide (key y = key x))
          rw [List.filter_cons, if_pos (by simp), hgf, hk]
        · rw [ih hxs kg (hg ▸ List.mem_cons_of_mem _ hkg)]
          rw [List.filter_cons, if_neg (by
            simp only [decide_eq_true_eq]
            intro he
            have hchain := pyGroupBy_keys_chain hxs
            rw [hg, List.map_cons, List.chain'_iff_pairwise,
              List.pairwise_cons] at hchain
            have hklt := hchain.1 kg.1 (List.mem_map_of_mem Prod.fst hkg)
            rw [← he, hk] at hklt
            exact lt_irrefl _ hklt)]
      · rw [pyGroupBy_cons_of_cons hg x, if_neg hk] at hkg
        have hxlt : key x < k := lt_of_le_of_ne hk_le hk
        rcases List.mem_cons.mp hkg with rfl | hkg
        · show [x] = (x :: xs).filter (fun y => decide (key y = key x))
          rw [List.filter_cons, if_pos (by simp)]
          rw [show xs.filter (fun y => decide (key y = key x)) = [] from by
            rw [List.filter_eq_nil_iff]
            intro y hy
            simp only [decide_eq_true_eq]
            intro he
            exact absurd (he ▸ hge y hy) (not_le.mpr hxlt)]
        · rw [ih hxs kg (hg ▸ hkg)]
          rw [List.filter_cons, if_neg (by
            simp only [decide_eq_true_eq]
            intro he
            have hmin := pyGroupBy_keys_min hxs hg kg hkg
            exact absurd (he ▸ hmin) (not_le.mpr hxlt))]

theorem pyGroupBy_keys_nodup {key : α → Int} {l : List α}
    (h : l.Pairwise (fun a b => key a ≤ key b)) :
    ((pyGroupBy key l).map Prod.fst).Nodup := by
  have hc := pyGroupBy_keys_chain h
  rw [List.chain'_iff_pairwise] at hc
  exact hc.imp ne_of_lt

theorem pyGroupBy_keys_toFinset (key : α → Int) (l : List α) :
    ((pyGroupBy key l).map Prod.fst).toFinset = (l.map key).toFinset := by
  ext a
  simp only [List.mem_toFinset, List.mem_map]
  constructor
  · rintro ⟨kg, hkg, rfl⟩
    obtain ⟨y, hy, hyk⟩ := pyGroupBy_key_is_member_key hkg
    exact ⟨y, hy, hyk⟩
  · rintro ⟨y, hy, rfl⟩
    obtain ⟨kg, hkg, hykg⟩ := @pyGroupBy_exists_group_of_mem _ key _ _ hy
    exact ⟨kg, hkg, (pyGroupBy_key_const key l kg hkg y hykg).symm⟩

theorem pyGroupBy_length_sorted {key : α → Int} {l : List α}
    (h : l.Pairwise (fun a b => key a ≤ key b)) :
    (pyGroupBy key l).length = (l.map key).toFinset.card := by
  rw [← pyGroupBy_keys_toFinset key l,
    List.toFinset_card_of_nodup (pyGroupBy_keys_nodup h), List.length_map]

theorem foldl_dictInsert_fresh [DecidableEq K] :
    ∀ (l : List (K × V)) (d : PyDict K V),
      (∀ k ∈ l.map Prod.fst, k ∉ dictKeys d) → (l.map Prod.fst).Nodup →
      l.foldl (fun t kv => dictInsert t kv.1 kv.2) d = d ++ l := by
  intro l
  induction l with
  | nil => simp
  | cons kv rest ih =>
    intro d hd hnodup
    rw [List.foldl_cons, dictInsert_fresh (hd kv.1 (by simp)) kv.2]
    rw [List.map_cons, List.nodup_cons] at hnodup
    rw [ih (d ++ [(kv.1, kv.2)]) ?_ hnodup.2]
    · simp
    · intro k hk
      rw [show dictKeys (d ++ [(kv.1, kv.2)]) = dictKeys d ++ [kv.1] from by
        simp [dictKeys]]
      intro hmem
      rcases List.mem_append.mp hmem with hm | hm
      · exact hd k (by simp [hk]) hm
      · rw [List.mem_singleton] at hm
        exact hnodup.1 (hm ▸ hk)

theorem foldl_dictInsert_fresh' [DecidableEq K] (f : γ → K) (v : γ → V) :
    ∀ (l : List γ) (d : PyDict K V),
      (∀ k ∈ l.map f, k ∉ dictKeys d) → (l.map f).Nodup →
      l.foldl (fun t x => dictInsert t (f x) (v x)) d =
        d ++ l.map (fun x => (f x, v x)) := by
  intro l
  induction l with
  | nil => simp
  | cons x rest ih =>
    intro d hd hnodup
    rw [List.foldl_cons, dictInsert_fresh (hd (f x) (by simp)) (v x)]
    rw [List.map_cons, List.nodup_cons] at hnodup
    rw [ih (d ++ [(f x, v x)]) ?_ hnodup.2]
    · simp
    · intro k hk
      rw [show dictKeys (d ++ [(f x, v x)]) = dictKeys d ++ [f x] from by
        simp [dictKeys]]
      intro hmem
      rcases List.mem_append.mp hmem with hm | hm
      · exact hd k (by simp [hk]) hm
      · rw [List.mem_singleton] at hm
        exact hnodup.1 (hm ▸ hk)

theorem sorted_by_fst (l : List (Int × Int × Int)) :
    (List.insertionSort (fun a b : Int × Int × Int => a.1 ≤ b.1) l).Pairwise
      (fun a b => a.1 ≤ b.1) := by
  haveI : IsTotal (Int × Int × Int) (fun a b => a.1 ≤ b.1) :=
    ⟨fun a b => le_total a.1 b.1⟩
  haveI : IsTrans (Int × Int × Int) (fun a b => a.1 ≤ b.1) :=
    ⟨fun a b c hab hbc => le_trans hab hbc⟩
  exact List.sorted_insertionSort _ l

theorem sorted_by_core (l : List (Int × Int × Int)) :
    (List.insertionSort (fun a b : Int × Int × Int => a.2.1 ≤ b.2.1) l).Pairwise
      (fun a b => a.2.1 ≤ b.2.1) := by
  haveI : IsTotal (Int × Int × Int) (fun a b => a.2.1 ≤ b.2.1) :=
    ⟨fun a b => le_total a.2.1 b.2.1⟩
  haveI : IsTrans (Int × Int × Int) (fun a b => a.2.1 ≤ b.2.1) :=
    ⟨fun a b c hab hbc => le_trans hab hbc⟩
  exact List.sorted_insertionSort _ l

theorem topoOfKeyed_eq_map (keyed : List (Int × Int × Int)) :
    topoOfKeyed keyed =
      (pyGroupBy (fun t => t.1)
        (List.insertionSort (fun a b : Int × Int × Int => a.1 ≤ b.1) keyed)).map
        (fun kg => (kg.1, innerDict kg.2)) := by
  unfold topoOfKeyed
  rw [foldl_dictInsert_fresh' Prod.fst (fun kg => innerDict kg.2) _ []
    (by simp [dictKeys]) (pyGroupBy_keys_nodup (sorted_by_fst keyed))]
  simp

theorem innerDict_eq_map (g : List (Int × Int × Int)) :
    innerDict g =
      (pyGroupBy (fun t => t.2.1)
        (List.insertionSort (fun a b : Int × Int × Int => a.2.1 ≤ b.2.1) g)).map
        (fun cg => (cg.1, cg.2.map (fun t => t.2.2))) := by
  unfold innerDict
  rw [foldl_dictInsert_fresh' Prod.fst (fun cg => cg.2.map (fun t => t.2.2)) _ []
    (by simp [dictKeys]) (pyGroupBy_keys_nodup (sorted_by_core g))]
  simp

theorem pyGroupBy_flatten (key : α → Int) (l : List α) :
    ((pyGroupBy key l).map Prod.snd).flatten = l :=
  pyGroupBy_join key l

/-- All CPU ids appearing anywhere in a topology mapping, in order. -/
def topoCpus (t : Topology) : List Int :=
  (t.map (fun s => (s.2.map Prod.snd).flatten)).flatten

theorem topoOfKeyed_length (keyed : List (Int × Int × Int)) :
    (topoOfKeyed keyed).length = (keyed.map (fun t => t.1)).toFinset.card := by
  rw [topoOfKeyed_eq_map, List.length_map,
    pyGroupBy_length_sorted (sorted_by_fst keyed)]
  rw [List.toFinset_eq_of_perm _ _
    ((List.perm_insertionSort _ keyed).map (fun t => t.1))]

theorem innerDict_length (g : List (Int × Int × Int)) :
    (innerDict g).length = (g.map (fun t => t.2.1)).toFinset.card := by
  rw [innerDict_eq_map, List.length_map,
    pyGroupBy_length_sorted (sorted_by_core g)]
  rw [List.toFinset_eq_of_perm _ _
    ((List.perm_insertionSort _ g).map (fun t => t.2.1))]

theorem topoOfKeyed_cores (keyed : List (Int × Int × Int)) :
    ((topoOfKeyed keyed).map (fun skv => skv.2.length)).sum =
      ∑ p ∈ (keyed.map (fun t => t.1)).toFinset,
        ((keyed.filter (fun t => decide (t.1 = p))).map
          (fun t => t.2.1)).toFinset.card := by
  rw [topoOfKeyed_eq_map, List.map_map]
  have hsorted := sorted_by_fst keyed
  have hperm : (List.insertionSort (fun a b : Int × Int × Int => a.1 ≤ b.1)
    keyed).Perm keyed := List.perm_insertionSort _ keyed
  set sorted1 := List.insertionSort (fun a b : Int × Int × Int => a.1 ≤ b.1) keyed
    with hs1
  have hstep : ((pyGroupBy (fun t => t.1) sorted1).map
      ((fun skv : Int × PyDict Int (List Int) => skv.2.length) ∘
        fun kg => (kg.1, innerDict kg.2))) =
      ((pyGroupBy (fun t => t.1) sorted1).map
        (fun kg => ((keyed.filter (fun t => decide (t.1 = kg.1))).map
          (fun t => t.2.1)).toFinset.card)) := by
    apply List.map_congr_left
    intro kg hkg
    show (innerDict kg.2).length = _
    rw [innerDict_length kg.2]
    rw [show kg.2 = sorted1.filter (fun y => decide (y.1 = kg.1)) from
      pyGroupBy_filter_sorted hsorted kg hkg]
    rw [List.toFinset_eq_of_perm _ _
      ((hperm.filter (fun y => decide (y.1 = kg.1))).map (fun t => t.2.1))]
  rw [hstep]
  have hcomp : (fun kg : Int × List (Int × Int × Int) =>
      ((keyed.filter (fun t => decide (t.1 = kg.1))).map
        (fun t => t.2.1)).toFinset.card) =
    ((fun p => ((keyed.filter (fun t => decide (t.1 = p))).map
        (fun t => t.2.1)).toFinset.card) ∘ Prod.fst) := rfl
  rw [hcomp, ← List.map_map]
  rw [← List.sum_toFinset _ (pyGroupBy_keys_nodup hsorted)]
  rw [pyGroupBy_keys_toFinset]
  rw [List.toFinset_eq_of_perm _ _ (hperm.map (fun t => t.1))]

theorem topoOfKeyed_cpus_perm (keyed : List (Int × Int × Int)) :
    (topoCpus (topoOfKeyed keyed)).Perm (keyed.map (fun t => t.2.2)) := by
  rw [topoCpus, topoOfKeyed_eq_map, List.map_map]
  have hsorted := sorted_by_fst keyed
  have hperm : (List.insertionSort (fun a b : Int × Int × Int => a.1 ≤ b.1)
    keyed).Perm keyed := List.perm_insertionSort _ keyed
  set sorted1 := List.insertionSort (fun a b : Int × Int × Int => a.1 ≤ b.1) keyed
    with hs1
  have hpointwise : ∀ kg ∈ pyGroupBy (fun t : Int × Int × Int => t.1) sorted1,
      (((innerDict kg.2).map Prod.snd).flatten).Perm
        (kg.2.map (fun t => t.2.2)) := by
    intro kg _
    rw [innerDict_eq_map, List.map_map]
    have hc : (Prod.snd ∘ fun cg : Int × List (Int × Int × Int) =>
        (cg.1, cg.2.map (fun t => t.2.2))) =
      (List.map (fun t : Int × Int × Int => t.2.2) ∘ Prod.snd) := rfl
    rw [hc, ← List.map_map, ← List.map_flatten, pyGroupBy_flatten]
    exact (List.perm_insertionSort
      (fun a b : Int × Int × Int => a.2.1 ≤ b.2.1) kg.2).map (fun t => t.2.2)
  have hjoin : ((pyGroupBy (fun t : Int × Int × Int => t.1) sorted1).map
      ((fun s : Int × PyDict Int (List Int) => (s.2.map Prod.snd).flatten) ∘
        fun kg => (kg.1, innerDict kg.2))).flatten.Perm
      (((pyGroupBy (fun t : Int × Int × Int => t.1) sorted1).map
        (fun kg => kg.2.map (fun t => t.2.2))).flatten) := by
    apply List.Perm.flatten_congr
    rw [List.forall₂_map_right_iff, List.forall₂_map_left_iff, List.forall₂_same]
    intro kg hkg
    exact hpointwise kg hkg
  refine hjoin.trans ?_
  have hc2 : (fun kg : Int × List (Int × Int × Int) =>
      kg.2.map (fun t => t.2.2)) =
    (List.map (fun t : Int × Int × Int => t.2.2) ∘ Prod.snd) := rfl
  rw [hc2, ← List.map_map, ← List.map_flatten, pyGroupBy_flatten]
  exact hperm.map (fun t => t.2.2)

theorem mapM_option_length (f : α → Option β) (l : List α) (l' : List β)
    (h : l.mapM f = some l') : l'.length = l.length := by
  induction l generalizing l' with
  | nil =>
    rw [List.mapM_nil, Option.pure_def] at h
    cases h
    rfl
  | cons x xs ih =>
    rw [List.mapM_cons] at h
    obtain ⟨y, hy, h2⟩ := Option.bind_eq_some.mp h
    obtain ⟨ys, hys, h3⟩ := Option.bind_eq_some.mp h2
    rw [Option.pure_def] at h3
    cases h3
    simp [ih ys hys]

/-- The record-extraction stage of `collect_topology_information`: the
same block splitting, per-block dictionary construction and key lookups,
stopping before the grouping.  It succeeds exactly when every non-empty
block is a well-formed record carrying parseable `physical id`,
`core id` and `processor` entries, and then yields one
`(physical id, core id, processor)` triple per record. -/
def topologyRecords (procinfo : List Char) :
    Option (List (Int × Int × Int)) := do
  let blocks := (splitOnNlNl procinfo).filter (fun b => b ≠ [])
  let processors ← blocks.mapM (fun proc => do
    let pairs ← (splitOnChar '\n' proc).mapM (fun line =>
      match (splitOnChar ':' line).map pyStrip with
      | [k, v] => some (k, v)
      | _ => none)
    pure (pairs.foldl (fun d (kv : List Char × List Char) => dictInsert d kv.1 kv.2)
      ([] : PyDict (List Char) (List Char))))
  processors.mapM (fun p => do
    let pid ← dictGet p "physical id".toList >>= pyInt
    let cid ← dictGet p "core id".toList >>= pyInt
    let prid ← dictGet p "processor".toList >>= pyInt
    pure (pid, cid, prid))

theorem collect_topology_of_records (procinfo : List Char)
    (keyed : List (Int × Int × Int))
    (hk : topologyRecords procinfo = some keyed) :
    collect_topology_information procinfo =
      some (keyed.length,
        ((topoOfKeyed keyed).map (fun skv => skv.2.length)).sum,
        (topoOfKeyed keyed).length, topoOfKeyed keyed) ∧
    keyed.length = ((splitOnNlNl procinfo).filter (fun b => b ≠ [])).length := by
  unfold topologyRecords at hk
  obtain ⟨ps, hps, hkg⟩ := Option.bind_eq_some.mp hk
  constructor
  · unfold collect_topology_information
    exact Option.bind_eq_some.mpr ⟨ps, hps, Option.bind_eq_some.mpr
      ⟨keyed, hkg, by rw [Option.pure_def, mapM_option_length _ ps keyed hkg]⟩⟩
  · rw [mapM_option_length _ ps keyed hkg, mapM_option_length _ _ ps hps]

/-- A two-record processor-descriptor text in which both records carry
all three topology keys but name the same `processor` id. -/
def cpuinfoDup : List Char :=
  ("processor: 0\nphysical id: 0\ncore id: 0\n\n" ++
   "processor: 0\nphysical id: 0\ncore id: 0").toList

/-- C5 counterexample: a processor-descriptor text whose two records both
contain the `physical id`, `core id` and `processor` keys — so the
claim's precondition holds — but share the processor id `0`.  The
collector succeeds and returns a mapping whose single CPU list is
`[0, 0]`: the CPU id `0` is repeated inside the structure, refuting the
claim's no-repetition part for this text (the three counts are still as
claimed: 2 records, 1 socket, 1 core). -/
theorem C5_counterexample :
    topologyRecords cpuinfoDup = some [(0, 0, 0), (0, 0, 0)] ∧
    collect_topology_information cpuinfoDup =
      some (2, 1, 1, [(0, [(0, [0, 0])])]) ∧
    ¬ (topoCpus [(0, [(0, [0, 0])])]).Nodup :=
  ⟨rfl, rfl, by decide⟩

/-- C5 (amended): for every processor-descriptor text whose records all
contain parseable `physical id`, `core id` and `processor` entries —
success of the record-extraction stage `topologyRecords`, with `keyed`
the one-per-record key triples — the topology collector returns the
number of records as the logical-processor count, the sum over distinct
socket ids of the number of distinct core ids within that socket as the
core count, the number of distinct socket ids as the socket count, and
the socket → core → CPU-list mapping built from the triples; the CPU ids
of the mapping are a permutation of the records' processor ids, and
under the amended additional hypothesis that the records' processor ids
are pairwise distinct, no CPU id is repeated anywhere in the
structure. -/
theorem C5_topology_collector (procinfo : List Char)
    (keyed : List (Int × Int × Int))
    (hk : topologyRecords procinfo = some keyed)
    (hnodup : (keyed.map (fun t => t.2.2)).Nodup) :
    (collect_topology_information procinfo =
      some (keyed.length,
        ∑ p ∈ (keyed.map (fun t => t.1)).toFinset,
          ((keyed.filter (fun t => decide (t.1 = p))).map
            (fun t => t.2.1)).toFinset.card,
        (keyed.map (fun t => t.1)).toFinset.card,
        topoOfKeyed keyed)) ∧
    keyed.length = ((splitOnNlNl procinfo).filter (fun b => b ≠ [])).length ∧
    (topoCpus (topoOfKeyed keyed)).Perm (keyed.map (fun t => t.2.2)) ∧
    (topoCpus (topoOfKeyed keyed)).Nodup := by
  obtain ⟨hcollect, hlen⟩ := collect_topology_of_records procinfo keyed hk
  refine ⟨?_, hlen, topoOfKeyed_cpus_perm keyed,
    ((topoOfKeyed_cpus_perm keyed).nodup_iff).mpr hnodup⟩
  rw [hcollect, topoOfKeyed_cores, topoOfKeyed_length]

/-- A 2-socket × 2-core × 2-thread processor-descriptor text (8 records),
the shape of the spec's worked example. -/
def cpuinfo222 : List Char :=
  ("processor: 0\nphysical id: 0\ncore id: 0\n\n" ++
   "processor: 1\nphysical id: 0\ncore id: 0\n\n" ++
   "processor: 2\nphysical id: 0\ncore id: 1\n\n" ++
   "processor: 3\nphysical id: 0\ncore id: 1\n\n" ++
   "processor: 4\nphysical id: 1\ncore id: 0\n\n" ++
   "processor: 5\nphysical id: 1\ncore id: 0\n\n" ++
   "processor: 6\nphysical id: 1\ncore id: 1\n\n" ++
   "processor: 7\nphysical id: 1\ncore id: 1").toList

/-- The `(physical id, core id, processor)` triples of `cpuinfo222`. -/
def keyed222 : List (Int × Int × Int) :=
  [(0, 0, 0), (0, 0, 1), (0, 1, 2), (0, 1, 3),
   (1, 0, 4), (1, 0, 5), (1, 1, 6), (1, 1, 7)]

/-- Witness for C5 on the spec's 2 × 2 × 2 example: the record extraction
succeeds with distinct processor ids, and the amended theorem applies. -/
theorem C5_topology_collector_witness :
    topologyRecords cpuinfo222 = some keyed222 ∧
    (keyed222.map (fun t => t.2.2)).Nodup ∧
    ((collect_topology_information cpuinfo222 =
      some (keyed222.length,
        ∑ p ∈ (keyed222.map (fun t => t.1)).toFinset,
          ((keyed222.filter (fun t => decide (t.1 = p))).map
            (fun t => t.2.1)).toFinset.card,
        (keyed222.map (fun t => t.1)).toFinset.card,
        topoOfKeyed keyed222)) ∧
      keyed222.length =
        ((splitOnNlNl cpuinfo222).filter (fun b => b ≠ [])).length ∧
      (topoCpus (topoOfKeyed keyed222)).Perm
        (keyed222.map (fun t => t.2.2)) ∧
      (topoCpus (topoOfKeyed keyed222)).Nodup) :=
  ⟨rfl, by decide, C5_topology_collector cpuinfo222 keyed222 rfl (by decide)⟩

end Wca
